import Mathlib

/-!
Verification of the article-reader text pipeline and rate limiter.

Strings are modelled as `List Char`.  The JavaScript regular-expression
operations used by the source are embedded as explicit recursive functions:
  * `replaceAll pat repl s`  models  `s.replace(new RegExp(pat-literal, 'g'), repl)`
    for a literal pattern (left-to-right, non-overlapping);
  * `jsSplitGo headTerm`     models  `s.split(/(?<=[.!?])\s+/)`;
  * `jsSplitGo (fun _ => true)` models `s.split(/\s+/)`;
  * `splitNNGo`              models  `s.split(/\n\n+/)`;
  * `trim`                   models  `String.prototype.trim`;
  * `jsWs`                   is the character class of `\s` in JavaScript.
The external readability library and URL parsing are oracles passed as
function parameters (`readability`, `urlHost`); `Option` return models a
`null` result / a thrown exception.  `parseInt(x, 10)` is modelled by
`jsParseInt` returning `none` for `NaN`.
-/

/-- Character class of JavaScript `\\s` (WhiteSpace and LineTerminator):
space, tab, LF, CR, VT, FF, NBSP (U+00A0), U+1680, U+2000 to U+200A,
U+2028, U+2029, U+202F, U+205F, U+3000 and U+FEFF. -/
def jsWs (c : Char) : Bool :=
  c == ' ' || c == '\t' || c == '\n' || c == '\r' ||
  c == Char.ofNat 0x0B || c == Char.ofNat 0x0C ||
  c == Char.ofNat 0xA0 || c == Char.ofNat 0x1680 ||
  (decide (0x2000 ≤ c.toNat) && decide (c.toNat ≤ 0x200A)) ||
  c == Char.ofNat 0x2028 || c == Char.ofNat 0x2029 ||
  c == Char.ofNat 0x202F || c == Char.ofNat 0x205F ||
  c == Char.ofNat 0x3000 || c == Char.ofNat 0xFEFF

/-- Sentence-terminal punctuation, the class `[.!?]`. -/
def isTerm (c : Char) : Bool :=
  c == '.' || c == '!' || c == '?'

/-- The tokenizer's punctuation class `[.,!?;:'"()]`. -/
def isPunct (c : Char) : Bool :=
  c == '.' || c == ',' || c == '!' || c == '?' || c == ';' || c == ':' ||
  c == Char.ofNat 39 || c == Char.ofNat 34 || c == '(' || c == ')'

/-- JavaScript `String.prototype.trim`. -/
def trim (s : List Char) : List Char :=
  ((s.dropWhile jsWs).reverse.dropWhile jsWs).reverse

/-- Fueled worker for `replaceAll`.  Each step either copies one character or
replaces one pattern occurrence (consuming `pat.length ≥ 1` characters), so
`s.length` fuel is exact for a non-empty pattern. -/
def replaceAllGo (pat repl : List Char) : Nat → List Char → List Char
  | 0, s => s
  | _ + 1, [] => []
  | fuel + 1, c :: rest =>
    if pat.isPrefixOf (c :: rest) then
      repl ++ replaceAllGo pat repl fuel ((c :: rest).drop pat.length)
    else
      c :: replaceAllGo pat repl fuel rest

/-- Global literal replacement, JavaScript
`s.replace(new RegExp(pat, 'g'), repl)` for a pattern with no regex
metacharacters: left-to-right, non-overlapping occurrences. -/
def replaceAll (pat repl s : List Char) : List Char :=
  replaceAllGo pat repl s.length s

/-- The masking token `<<<DOT>>>` of `splitIntoSentences`. -/
def MASK : List Char := ("<<<DOT>>>".toList)

/-- The fixed abbreviation list of the source (`const ABBREVIATIONS`). -/
def ABBREVIATIONS : List (List Char) :=
  [("Mr".toList), ("Mrs".toList), ("Ms".toList), ("Dr".toList),
   ("Prof".toList), ("Sr".toList), ("Jr".toList)]

/-- The masking loop of `splitIntoSentences`: for each abbreviation in order,
replace every occurrence of `<abbr>.` by `<abbr><<<DOT>>>`. -/
def maskAbbrs (text : List Char) : List Char :=
  ABBREVIATIONS.foldl (fun acc abbr => replaceAll (abbr ++ ['.']) (abbr ++ MASK) acc) text

/-- Does the accumulated (reversed) piece end with a sentence terminator?
This is the lookbehind `(?<=[.!?])` applied to the previous character. -/
def headTerm : List Char → Bool
  | [] => false
  | c :: _ => isTerm c

/-- JavaScript `split` on a regex `(?<=X)\s+`: scan left to right; at a
whitespace character where `cond` holds of the (reversed) accumulated piece,
cut, then consume the rest of the maximal whitespace run (`skip = true`).
`cond := headTerm` gives `split(/(?<=[.!?])\s+/)`; a constantly-true `cond`
gives `split(/\s+/)`. -/
def jsSplitGo (cond : List Char → Bool) : List Char → Bool → List Char → List (List Char)
  | cur, _, [] => [cur.reverse]
  | cur, false, c :: rest =>
    if jsWs c && cond cur then
      cur.reverse :: jsSplitGo cond [] true rest
    else
      jsSplitGo cond (c :: cur) false rest
  | _, true, c :: rest =>
    if jsWs c then jsSplitGo cond [] true rest
    else jsSplitGo cond [c] false rest

/-- Unmasking step of `splitIntoSentences`: `s.replace(/<<<DOT>>>/g, '.')`. -/
def unmask (s : List Char) : List Char :=
  replaceAll MASK ['.'] s

/-- `splitIntoSentences` from `article-parser.ts`: mask abbreviation periods,
split on `(?<=[.!?])\s+`, unmask and trim each piece, drop empty pieces. -/
def splitIntoSentences (text : List Char) : List (List Char) :=
  ((jsSplitGo headTerm [] false (maskAbbrs text)).map (fun s => trim (unmask s))).filter
    (fun s => decide (0 < s.length))

/-- Punctuation removal of `splitIntoWords`: `s.replace(/[.,!?;:'"()]/g, '')`. -/
def stripPunct (s : List Char) : List Char :=
  s.filter (fun c => !(isPunct c))

/-- `splitIntoWords` from `article-parser.ts`: strip punctuation, split on
`/\s+/`, drop zero-length tokens. -/
def splitIntoWords (sentence : List Char) : List (List Char) :=
  ((jsSplitGo (fun _ => true) [] false (stripPunct sentence)).filter
    (fun w => decide (0 < w.length)))

/-- JavaScript `split(/\n\n+/)`: `pending` counts the newlines just read; a
run of two or more newlines is a separator, a single newline stays in the
piece. -/
def splitNNGo : List Char → Nat → List Char → List (List Char)
  | cur, pending, [] =>
    if 2 ≤ pending then [cur.reverse, []]
    else [(List.replicate pending '\n' ++ cur).reverse]
  | cur, pending, c :: rest =>
    if c == '\n' then splitNNGo cur (pending + 1) rest
    else if 2 ≤ pending then cur.reverse :: splitNNGo [c] 0 rest
    else splitNNGo (c :: (List.replicate pending '\n' ++ cur)) 0 rest

/-- Result of the external readability library's `parse()`: `none` models a
`null` result; the fields may themselves be absent (`null`). -/
structure RArticle where
  title : Option (List Char)
  textContent : Option (List Char)
deriving DecidableEq, Repr

/-- `ExtractedArticle` of `article-parser.ts`. -/
structure ExtractedArticle where
  title : List Char
  content : List Char
  source : List Char
deriving DecidableEq, Repr

/-- `ParsedSentence` of `article-parser.ts`. -/
structure ParsedSentence where
  text : List Char
  words : List (List Char)
deriving DecidableEq, Repr

/-- `ParsedParagraph` of `article-parser.ts`. -/
structure ParsedParagraph where
  sentences : List ParsedSentence
deriving DecidableEq, Repr

/-- `ParsedArticle` of `article-parser.ts`. -/
structure ParsedArticle where
  title : List Char
  source : List Char
  paragraphs : List ParsedParagraph
deriving DecidableEq, Repr

/-- `extractArticle(html, url)`.  The readability heuristic and URL parsing
are supplied as oracles: `readability html = none` models
`new Readability(document).parse()` returning `null`, `urlHost url = none`
models `new URL(url)` throwing.  `Except.error` models a thrown `Error`. -/
def extractArticle (readability : List Char → Option RArticle)
    (urlHost : List Char → Option (List Char))
    (html url : List Char) : Except (List Char) ExtractedArticle :=
  if html = [] then .error ("HTML content is required".toList)
  else
    match readability html with
    | none => .error ("Failed to parse article".toList)
    | some article =>
      match urlHost url with
      | none => .error ("Invalid URL".toList)
      | some host =>
        .ok { title := article.title.getD []
              content := article.textContent.getD []
              source := host }

/-- `parseArticle(html, url)`: extract, split the content into paragraphs at
blank lines (`/\n\n+/`), drop whitespace-only paragraphs, then segment each
paragraph into sentences and each sentence into words. -/
def parseArticle (readability : List Char → Option RArticle)
    (urlHost : List Char → Option (List Char))
    (html url : List Char) : Except (List Char) ParsedArticle :=
  match extractArticle readability urlHost html url with
  | .error e => .error e
  | .ok extracted =>
    let paragraphTexts :=
      (splitNNGo [] 0 extracted.content).filter (fun p => decide (0 < (trim p).length))
    .ok { title := extracted.title
          source := extracted.source
          paragraphs := paragraphTexts.map (fun paragraphText =>
            { sentences := (splitIntoSentences paragraphText).map (fun sentenceText =>
                { text := sentenceText, words := splitIntoWords sentenceText }) }) }

/-- `RateLimitConfig` of `rate-limiter.ts`. -/
structure RateLimitConfig where
  maxRequests : Int
  windowMs : Int
deriving DecidableEq, Repr

/-- `RateLimitResult` of `rate-limiter.ts`; `remaining = none` models `NaN`. -/
structure RateLimitResult where
  allowed : Bool
  remaining : Option Int
deriving DecidableEq, Repr

/-- Value of a decimal digit string. -/
def digitsVal (ds : List Char) : Int :=
  ds.foldl (fun n c => 10 * n + (Int.ofNat (c.toNat - 48))) 0

/-- JavaScript `parseInt(s, 10)`: skip leading whitespace, optional sign,
then the longest ASCII-digit prefix; `none` models `NaN` (no digits). -/
def jsParseInt (s : List Char) : Option Int :=
  match s.dropWhile jsWs with
  | '-' :: r =>
    let ds := r.takeWhile Char.isDigit
    if ds = [] then none else some (-(digitsVal ds))
  | '+' :: r =>
    let ds := r.takeWhile Char.isDigit
    if ds = [] then none else some (digitsVal ds)
  | s1 =>
    let ds := s1.takeWhile Char.isDigit
    if ds = [] then none else some (digitsVal ds)

/-- JavaScript `current >= max` where `current` may be `NaN` (`none`):
any comparison with `NaN` is false. -/
def jsGE : Option Int → Int → Bool
  | some n, m => decide (m ≤ n)
  | none, _ => false

/-- JavaScript `m - current` where `current` may be `NaN`: `NaN` propagates. -/
def jsSubFrom (m : Int) : Option Int → Option Int
  | some n => some (m - n)
  | none => none

/-- `await this.kv.get(key) || '0'`: a `null` (missing key) or empty-string
value is replaced by `'0'` (both are falsy). -/
def storedOrZero : Option (List Char) → List Char
  | none => ("0".toList)
  | some s => if s = [] then ("0".toList) else s

/-- `RateLimiter.checkLimit` for one call, with the key-value store's answer
for the rate key passed in as `stored`. -/
def checkLimit (stored : Option (List Char)) (config : RateLimitConfig) : RateLimitResult :=
  let current := jsParseInt (storedOrZero stored)
  if jsGE current config.maxRequests then
    { allowed := false, remaining := some 0 }
  else
    { allowed := true, remaining := jsSubFrom config.maxRequests current }

/-- `RATE_LIMITS.article` of `rate-limiter.ts`. -/
def RATE_LIMITS_article : RateLimitConfig :=
  { maxRequests := 30, windowMs := 60 * 60 * 1000 }

/-- `RATE_LIMITS.translate` of `rate-limiter.ts`. -/
def RATE_LIMITS_translate : RateLimitConfig :=
  { maxRequests := 100, windowMs := 60 * 60 * 1000 }

example : splitIntoSentences ("Mr. Smith went home. He was tired.".toList) =
    [("Mr. Smith went home.".toList), ("He was tired.".toList)] := by decide

example : splitIntoWords ("Hello, world!".toList) = [("Hello".toList), ("world".toList)] := by
  decide

/-! ### Claim C1: abbreviation periods are not sentence boundaries -/

/-- C1: a period immediately preceded by an abbreviation from the fixed list
(`Mr`, `Mrs`, `Ms`, `Dr`, `Prof`, `Sr`, `Jr`) is not treated as a sentence
boundary, for each abbreviation of the list and only with the exact leading
capitalization (the lowercase variant does split); in particular
`splitIntoSentences "Mr. Smith went home. He was tired."` is exactly the two
sentences `["Mr. Smith went home.", "He was tired."]`. -/
theorem C1_abbrev_period_not_boundary :
    splitIntoSentences ("Mr. Smith went home. He was tired.".toList) =
      [("Mr. Smith went home.".toList), ("He was tired.".toList)] ∧
    (ABBREVIATIONS.all (fun a =>
      splitIntoSentences (a ++ (". One went home. Two left.".toList)) ==
        [a ++ (". One went home.".toList), ("Two left.".toList)])) = true ∧
    splitIntoSentences ("mr. smith went home. He was tired.".toList) =
      [("mr.".toList), ("smith went home.".toList), ("He was tired.".toList)] := by
  exact ⟨by decide, by decide, by decide⟩

/-! ### Claim C9: abbreviations match as substrings, without word boundaries -/

/-- C9: the abbreviation masking has no word-boundary requirement: in
`"I saw the USSr. Next came peace."` the token `USSr` ends with the
abbreviation `Sr`, so its period is masked and no split happens there (one
sentence results), whereas the all-caps `USSR` (capital `R`, so no
abbreviation suffix) does split into two sentences. -/
theorem C9_abbrev_matches_inside_tokens :
    splitIntoSentences ("I saw the USSr. Next came peace.".toList) =
      [("I saw the USSr. Next came peace.".toList)] ∧
    splitIntoSentences ("I saw the USSR. Next came peace.".toList) =
      [("I saw the USSR.".toList), ("Next came peace.".toList)] := by
  exact ⟨by decide, by decide⟩

/-! ### Claim C8: the rate-limit decision -/

/-- C8: when the stored counter parses to a number `n`, `checkLimit` returns
`{allowed := false, remaining := 0}` if `n ≥ maxRequests` and
`{allowed := true, remaining := maxRequests - n}` if `n < maxRequests`; a
missing counter counts as `0`. -/
theorem C8_checkLimit_decision (config : RateLimitConfig) (stored : Option (List Char))
    (n : Int) (h : jsParseInt (storedOrZero stored) = some n) :
    (config.maxRequests ≤ n →
      checkLimit stored config = { allowed := false, remaining := some 0 }) ∧
    (n < config.maxRequests →
      checkLimit stored config = { allowed := true, remaining := some (config.maxRequests - n) }) ∧
    jsParseInt (storedOrZero none) = some 0 := by
  refine ⟨fun hge => ?_, fun hlt => ?_, by decide⟩
  · simp [checkLimit, h, jsGE, hge]
  · simp [checkLimit, h, jsGE, jsSubFrom, not_le.mpr hlt]

/-- Witness for C8 at the concrete article configuration and a stored count
of `42 ≥ 30`. -/
theorem C8_checkLimit_decision_witness :
    (RATE_LIMITS_article.maxRequests ≤ 42 →
      checkLimit (some ("42".toList)) RATE_LIMITS_article =
        { allowed := false, remaining := some 0 }) ∧
    (42 < RATE_LIMITS_article.maxRequests →
      checkLimit (some ("42".toList)) RATE_LIMITS_article =
        { allowed := true, remaining := some (RATE_LIMITS_article.maxRequests - 42) }) ∧
    jsParseInt (storedOrZero none) = some 0 :=
  C8_checkLimit_decision RATE_LIMITS_article (some ("42".toList)) 42 (by decide)

/-! ### Claim C10: a corrupted counter fails open -/

/-- C10: when the stored value parses to `NaN` (for example `"abc"`),
`checkLimit` returns `allowed = true` with `remaining = NaN` (modelled as
`none`), because the comparison `NaN >= maxRequests` is false. -/
theorem C10_checkLimit_NaN_fails_open (config : RateLimitConfig) :
    checkLimit (some ("abc".toList)) config = { allowed := true, remaining := none } := by
  rfl

/-- Witness for C10 at the concrete article configuration. -/
theorem C10_checkLimit_NaN_fails_open_witness :
    checkLimit (some ("abc".toList)) RATE_LIMITS_article =
      { allowed := true, remaining := none } :=
  C10_checkLimit_NaN_fails_open RATE_LIMITS_article

/-! ### Claim C4: extraction failure behaviour -/

/-- C4 counterexample: when the readability heuristic succeeds but yields no
body text (`textContent` absent), `extractArticle` does not fail — it returns
a complete `ExtractedArticle` whose `content` silently defaults to the empty
string (`article.textContent || ''`), contradicting the claim that
"extraction fails (rather than silently defaulting) whenever the body text
cannot be derived". -/
theorem C4_counterexample :
    extractArticle (fun _ => some { title := some ("T".toList), textContent := none })
      (fun _ => some ("example.com".toList))
      ("<html></html>".toList) ("https://example.com/a".toList) =
    .ok { title := ("T".toList), content := [], source := ("example.com".toList) } := by
  rfl

/-- C4 (amended): `extractArticle` fails with an extraction error whenever the
html is the empty string or the readability heuristic cannot identify a
primary content block; but when the heuristic succeeds, it always returns a
complete `ExtractedArticle`, with `title` and `content` defaulting to the
empty string when the corresponding field cannot be derived (it does not
fail in that case). -/
theorem C4_extraction_failure (readability : List Char → Option RArticle)
    (urlHost : List Char → Option (List Char)) (html url : List Char) :
    (extractArticle readability urlHost [] url =
      .error ("HTML content is required".toList)) ∧
    (html ≠ [] → readability html = none →
      extractArticle readability urlHost html url =
        .error ("Failed to parse article".toList)) ∧
    (∀ ra host, html ≠ [] → readability html = some ra → urlHost url = some host →
      extractArticle readability urlHost html url =
        .ok { title := ra.title.getD [], content := ra.textContent.getD [], source := host }) := by
  refine ⟨rfl, fun hne hr => ?_, fun ra host hne hr hu => ?_⟩
  · simp [extractArticle, hne, hr]
  · simp [extractArticle, hne, hr, hu]

/-! ### Claim C6: word tokenization -/

/-- Every character of every piece produced by `jsSplitGo` comes from the
accumulator or from the input. -/
theorem jsSplitGo_chars (cond : List Char → Bool) :
    ∀ (u cur : List Char) (mode : Bool) (p : List Char),
      p ∈ jsSplitGo cond cur mode u → ∀ c ∈ p, c ∈ cur ∨ c ∈ u := by
  intro u
  induction u with
  | nil =>
    intro cur mode p hp c hc
    cases mode <;>
      simp only [jsSplitGo, List.mem_singleton] at hp <;>
      (subst hp; exact Or.inl (List.mem_reverse.mp hc))
  | cons c0 rest ih =>
    intro cur mode p hp c hc
    cases mode with
    | false =>
      simp only [jsSplitGo] at hp
      by_cases hcut : (jsWs c0 && cond cur) = true
      · rw [if_pos hcut] at hp
        rcases List.mem_cons.mp hp with h | h
        · subst h; exact Or.inl (List.mem_reverse.mp hc)
        · rcases ih [] true p h c hc with h' | h'
          · simp at h'
          · exact Or.inr (List.mem_cons_of_mem _ h')
      · rw [if_neg hcut] at hp
        rcases ih (c0 :: cur) false p hp c hc with h' | h'
        · rcases List.mem_cons.mp h' with h'' | h''
          · exact Or.inr (h'' ▸ List.mem_cons_self _ _)
          · exact Or.inl h''
        · exact Or.inr (List.mem_cons_of_mem _ h')
    | true =>
      simp only [jsSplitGo] at hp
      by_cases hws : jsWs c0 = true
      · rw [if_pos hws] at hp
        rcases ih [] true p hp c hc with h' | h'
        · simp at h'
        · exact Or.inr (List.mem_cons_of_mem _ h')
      · rw [if_neg hws] at hp
        rcases ih [c0] false p hp c hc with h' | h'
        · rcases List.mem_cons.mp h' with h'' | h''
          · exact Or.inr (h'' ▸ List.mem_cons_self _ _)
          · simp at h''
        · exact Or.inr (List.mem_cons_of_mem _ h')

/-- With the constantly-true cut condition (the `split(/\s+/)` instance),
no piece ever contains a whitespace character, provided the accumulator is
whitespace-free. -/
theorem jsSplitT_wsFree :
    ∀ (u cur : List Char) (mode : Bool), (∀ x ∈ cur, jsWs x = false) →
      ∀ p ∈ jsSplitGo (fun _ => true) cur mode u, ∀ c ∈ p, jsWs c = false := by
  intro u
  induction u with
  | nil =>
    intro cur mode hcur p hp c hc
    cases mode <;> simp only [jsSplitGo, List.mem_singleton] at hp <;>
      (subst hp; exact hcur c (List.mem_reverse.mp hc))
  | cons c0 rest ih =>
    intro cur mode hcur p hp c hc
    cases mode with
    | false =>
      simp only [jsSplitGo] at hp
      by_cases hws : jsWs c0 = true
      · rw [if_pos (by simp [hws])] at hp
        rcases List.mem_cons.mp hp with h | h
        · subst h; exact hcur c (List.mem_reverse.mp hc)
        · exact ih [] true (by simp) p h c hc
      · rw [if_neg (by simp [hws])] at hp
        refine ih (c0 :: cur) false ?_ p hp c hc
        intro x hx
        rcases List.mem_cons.mp hx with h | h
        · exact h ▸ (by simpa using hws)
        · exact hcur x h
    | true =>
      simp only [jsSplitGo] at hp
      by_cases hws : jsWs c0 = true
      · rw [if_pos hws] at hp
        exact ih [] true (by simp) p hp c hc
      · rw [if_neg hws] at hp
        refine ih [c0] false ?_ p hp c hc
        intro x hx
        rcases List.mem_cons.mp hx with h | h
        · exact h ▸ (by simpa using hws)
        · simp at h

/-- C6: `splitIntoWords` removes every occurrence of the fixed punctuation
characters from anywhere in the string (so `don't` becomes the single word
`dont`), then splits on whitespace runs and drops zero-length results; in
particular `splitIntoWords "Hello, world!" = ["Hello", "world"]`, and in
general every produced word is non-empty and free of punctuation and of
whitespace. -/
theorem C6_splitIntoWords_strips_punct_splits_ws :
    splitIntoWords ("Hello, world!".toList) = [("Hello".toList), ("world".toList)] ∧
    splitIntoWords ("This is a sentence.".toList) =
      [("This".toList), ("is".toList), ("a".toList), ("sentence".toList)] ∧
    splitIntoWords (("don".toList) ++ [Char.ofNat 39] ++ ("t".toList)) = [("dont".toList)] ∧
    (∀ s w, w ∈ splitIntoWords s →
      w ≠ [] ∧ ∀ c ∈ w, isPunct c = false ∧ jsWs c = false) := by
  refine ⟨by decide, by decide, by decide, fun s w hw => ?_⟩
  have hw' := List.mem_filter.mp hw
  refine ⟨fun hnil => by simp [hnil] at hw', fun c hc => ?_⟩
  constructor
  · rcases jsSplitGo_chars (fun _ => true) (stripPunct s) [] false w hw'.1 c hc with h | h
    · simp at h
    · have := List.mem_filter.mp h
      simpa using this.2
  · exact jsSplitT_wsFree (stripPunct s) [] false (by simp) w hw'.1 c hc

/-! ### Claim C7: paragraph splitting -/

/-- `trim` gives the empty string exactly when every character is
whitespace. -/
theorem trim_eq_nil_iff (s : List Char) : trim s = [] ↔ ∀ c ∈ s, jsWs c = true := by
  constructor
  · intro h c hc
    have h1 : (s.dropWhile jsWs).reverse.dropWhile jsWs = [] := by
      simpa [trim] using congrArg List.reverse h
    have h2 : ∀ x ∈ s.dropWhile jsWs, jsWs x = true := fun x hx =>
      List.dropWhile_eq_nil_iff.mp h1 x (List.mem_reverse.mpr hx)
    have hsplit := List.takeWhile_append_dropWhile (p := jsWs) (l := s)
    rw [← hsplit] at hc
    rcases List.mem_append.mp hc with h3 | h3
    · exact List.mem_takeWhile_imp h3
    · exact h2 c h3
  · intro h
    have : s.dropWhile jsWs = [] := List.dropWhile_eq_nil_iff.mpr h
    simp [trim, this]

/-- Every character of every piece produced by `splitNNGo` comes from the
accumulator, from the input, or is a newline. -/
theorem splitNNGo_chars :
    ∀ (u cur : List Char) (pending : Nat) (p : List Char),
      p ∈ splitNNGo cur pending u → ∀ c ∈ p, c ∈ cur ∨ c = '\n' ∨ c ∈ u := by
  intro u
  induction u with
  | nil =>
    intro cur pending p hp c hc
    simp only [splitNNGo] at hp
    by_cases hpend : 2 ≤ pending
    · rw [if_pos hpend] at hp
      simp only [List.mem_cons, List.not_mem_nil, or_false, List.mem_singleton] at hp
      rcases hp with h | h
      · subst h; exact Or.inl (List.mem_reverse.mp hc)
      · subst h; simp at hc
    · rw [if_neg hpend] at hp
      simp only [List.mem_singleton] at hp
      subst hp
      rcases List.mem_append.mp (List.mem_reverse.mp hc) with h | h
      · exact Or.inr (Or.inl (List.eq_of_mem_replicate h))
      · exact Or.inl h
  | cons c0 rest ih =>
    intro cur pending p hp c hc
    simp only [splitNNGo] at hp
    by_cases hnl : (c0 == '\n') = true
    · rw [if_pos hnl] at hp
      rcases ih cur (pending + 1) p hp c hc with h | h | h
      · exact Or.inl h
      · exact Or.inr (Or.inl h)
      · exact Or.inr (Or.inr (List.mem_cons_of_mem _ h))
    · rw [if_neg hnl] at hp
      by_cases hpend : 2 ≤ pending
      · rw [if_pos hpend] at hp
        rcases List.mem_cons.mp hp with h | h
        · subst h; exact Or.inl (List.mem_reverse.mp hc)
        · rcases ih [c0] 0 p h c hc with h' | h' | h'
          · simp only [List.mem_singleton] at h'
            exact Or.inr (Or.inr (h' ▸ List.mem_cons_self _ _))
          · exact Or.inr (Or.inl h')
          · exact Or.inr (Or.inr (List.mem_cons_of_mem _ h'))
      · rw [if_neg hpend] at hp
        rcases ih (c0 :: (List.replicate pending '\n' ++ cur)) 0 p hp c hc with h | h | h
        · rcases List.mem_cons.mp h with h' | h'
          · exact Or.inr (Or.inr (h' ▸ List.mem_cons_self _ _))
          · rcases List.mem_append.mp h' with h'' | h''
            · exact Or.inr (Or.inl (List.eq_of_mem_replicate h''))
            · exact Or.inl h''
        · exact Or.inr (Or.inl h)
        · exact Or.inr (Or.inr (List.mem_cons_of_mem _ h))

/-- C7: `parseArticle` splits the body text into paragraphs at runs of one or
more blank lines and discards purely-whitespace paragraphs: body text that is
entirely whitespace yields an empty `paragraphs` list (not an error), and a
whitespace-only paragraph between two blank-line separators contributes zero
entries. -/
theorem C7_blank_line_paragraphs :
    (∀ (readability : List Char → Option RArticle)
       (urlHost : List Char → Option (List Char))
       (html url : List Char) (ra : RArticle) (hn content : List Char),
      html ≠ [] → readability html = some ra → ra.textContent = some content →
      urlHost url = some hn → trim content = [] →
      parseArticle readability urlHost html url =
        .ok { title := ra.title.getD [], source := hn, paragraphs := [] }) ∧
    parseArticle
      (fun _ => some { title := some ("T".toList),
                       textContent := some ("A.\n\n   \n\nB.".toList) })
      (fun _ => some ("example.com".toList))
      ("<html>".toList) ("https://example.com/a".toList) =
      .ok { title := ("T".toList), source := ("example.com".toList),
            paragraphs :=
              [{ sentences := [{ text := ("A.".toList), words := [("A".toList)] }] },
               { sentences := [{ text := ("B.".toList), words := [("B".toList)] }] }] } := by
  constructor
  · intro readability urlHost html url ra hn content hne hr htc hu htrim
    have hws : ∀ c ∈ content, jsWs c = true := (trim_eq_nil_iff content).mp htrim
    have hfilter : (splitNNGo [] 0 content).filter (fun p => decide (0 < (trim p).length)) = [] := by
      rw [List.filter_eq_nil_iff]
      intro p hp
      have : trim p = [] := by
        rw [trim_eq_nil_iff]
        intro c hc
        rcases splitNNGo_chars content [] 0 p hp c hc with h | h | h
        · simp at h
        · subst h; decide
        · exact hws c h
      simp [this]
    simp [parseArticle, extractArticle, hne, hr, htc, hu, hfilter]
  · rfl

/-! ### Claim C3: word sequence = punctuation-stripped, whitespace-normalized text -/

/-- Joining a list of words with single spaces. -/
def joinSp : List (List Char) → List Char
  | [] => []
  | [w] => w
  | w :: rest => w ++ ' ' :: joinSp rest

/-- Maximal non-whitespace runs of a string, in order. -/
def wordsGo (cur : List Char) : List Char → List (List Char)
  | [] => if cur.isEmpty then [] else [cur.reverse]
  | c :: rest =>
    if jsWs c then
      if cur.isEmpty then wordsGo [] rest else cur.reverse :: wordsGo [] rest
    else wordsGo (c :: cur) rest

/-- Specification-side whitespace normalization: collapse every whitespace
run to a single space and drop leading/trailing whitespace.  State `0`: at
the start (nothing emitted); state `1`: inside a word; state `2`: a
whitespace run is pending after a word. -/
def normWsGo : Nat → List Char → List Char
  | _, [] => []
  | st, c :: rest =>
    if jsWs c then normWsGo (if st == 0 then 0 else 2) rest
    else if st == 2 then ' ' :: c :: normWsGo 1 rest
    else c :: normWsGo 1 rest

/-- Whitespace normalization: runs of whitespace become single spaces, edges
are trimmed. -/
def normalizeWs (s : List Char) : List Char := normWsGo 0 s

/-- Joining `joinSp` over a cons with a non-empty tail. -/
theorem joinSp_cons (x : List Char) (l : List (List Char)) (h : l ≠ []) :
    joinSp (x :: l) = x ++ ' ' :: joinSp l := by
  cases l with
  | nil => exact absurd rfl h
  | cons y ys => rfl

/-- The filtered `split(/\s+/)` pieces are exactly the maximal non-whitespace
runs. -/
theorem jsSplitT_eq_wordsGo :
    ∀ u : List Char,
      (∀ cur, cur ≠ [] →
        (jsSplitGo (fun _ => true) cur false u).filter (fun w => decide (0 < w.length)) =
          wordsGo cur u) ∧
      ((jsSplitGo (fun _ => true) [] false u).filter (fun w => decide (0 < w.length)) =
          wordsGo [] u) ∧
      ((jsSplitGo (fun _ => true) [] true u).filter (fun w => decide (0 < w.length)) =
          wordsGo [] u) := by
  intro u
  induction u with
  | nil =>
    refine ⟨fun cur hcur => ?_, by simp [jsSplitGo, wordsGo], by simp [jsSplitGo, wordsGo]⟩
    have hl : 0 < cur.length := List.length_pos.mpr hcur
    simp [jsSplitGo, wordsGo, List.filter, hl, List.isEmpty_iff, hcur]
  | cons c0 rest ih =>
    obtain ⟨iha, ihb, ihc⟩ := ih
    refine ⟨fun cur hcur => ?_, ?_, ?_⟩
    · by_cases hws : jsWs c0 = true
      · have hlen : cur.reverse.length > 0 := by simpa [List.length_pos] using hcur
        simp only [jsSplitGo, hws, Bool.true_and, if_pos]
        rw [List.filter_cons]
        simp only [hlen, decide_True]
        rw [wordsGo]
        simp only [hws, if_pos, List.isEmpty_iff, hcur, if_neg]
        simp only [List.isEmpty_eq_true, hcur, ite_false]
        rw [ihc]
      · simp only [jsSplitGo, hws, Bool.false_and, if_neg, Bool.not_eq_true]
        rw [wordsGo]
        simp only [hws, ite_false]
        exact iha (c0 :: cur) (by simp)
    · by_cases hws : jsWs c0 = true
      · simp only [jsSplitGo, hws, Bool.true_and, if_pos]
        rw [List.filter_cons]
        simp only [List.length_reverse, List.length_nil, decide_False]
        rw [wordsGo]
        simp only [hws, ite_true, List.isEmpty_nil, ite_true]
        simpa using ihc
      · simp only [jsSplitGo, hws, Bool.false_and, if_neg, Bool.not_eq_true]
        rw [wordsGo]
        simp only [hws, ite_false]
        exact iha [c0] (by simp)
    · by_cases hws : jsWs c0 = true
      · simp only [jsSplitGo, hws, if_pos]
        rw [wordsGo]
        simp only [hws, ite_true, List.isEmpty_nil, ite_true]
        exact ihc
      · simp only [jsSplitGo, hws, if_neg, Bool.not_eq_true]
        rw [wordsGo]
        simp only [hws, ite_false]
        exact iha [c0] (by simp)

/-- A non-empty accumulator always yields at least one word. -/
theorem wordsGo_ne_nil : ∀ (u cur : List Char), cur ≠ [] → wordsGo cur u ≠ [] := by
  intro u
  induction u with
  | nil => intro cur hcur; simp [wordsGo, List.isEmpty_iff, hcur]
  | cons c0 rest ih =>
    intro cur hcur
    rw [wordsGo]
    by_cases hws : jsWs c0 = true
    · simp [hws, List.isEmpty_iff, hcur]
    · simpa [hws] using ih (c0 :: cur) (by simp)

/-- The word list is empty exactly when the normalized string is empty. -/
theorem wordsGo_nil_iff_normWs_nil :
    ∀ u : List Char, wordsGo [] u = [] ↔ normWsGo 0 u = [] := by
  intro u
  induction u with
  | nil => simp [wordsGo, normWsGo]
  | cons c0 rest ih =>
    rw [wordsGo, normWsGo]
    by_cases hws : jsWs c0 = true
    · simpa [hws] using ih
    · simp only [hws, ite_false]
      constructor
      · intro h; exact absurd h (wordsGo_ne_nil rest [c0] (by simp))
      · intro h; simp at h

/-- Pending-space state: the normalization emits a single leading space
exactly when more output follows. -/
theorem normWsGo_two :
    ∀ u : List Char,
      normWsGo 2 u = if normWsGo 0 u = [] then [] else ' ' :: normWsGo 0 u := by
  intro u
  induction u with
  | nil => simp [normWsGo]
  | cons c0 rest ih =>
    rw [normWsGo, normWsGo]
    by_cases hws : jsWs c0 = true
    · simpa [hws] using ih
    · simp [hws]

/-- Joining the words of a string with single spaces is exactly whitespace
normalization. -/
theorem joinSp_wordsGo :
    ∀ u : List Char,
      (joinSp (wordsGo [] u) = normWsGo 0 u) ∧
      (∀ cur, cur ≠ [] → joinSp (wordsGo cur u) = cur.reverse ++ normWsGo 1 u) := by
  intro u
  induction u with
  | nil =>
    refine ⟨by simp [wordsGo, normWsGo, joinSp], fun cur hcur => ?_⟩
    simp [wordsGo, normWsGo, List.isEmpty_iff, hcur, joinSp]
  | cons c0 rest ih =>
    obtain ⟨iha, ihb⟩ := ih
    constructor
    · rw [wordsGo, normWsGo]
      by_cases hws : jsWs c0 = true
      · simpa [hws] using iha
      · simp only [hws, ite_false]
        simpa using ihb [c0] (by simp)
    · intro cur hcur
      by_cases hws : jsWs c0 = true
      · have hgoal : joinSp (cur.reverse :: wordsGo [] rest) =
            cur.reverse ++ normWsGo 2 rest := by
          rw [normWsGo_two]
          by_cases hnil : normWsGo 0 rest = []
          · have : wordsGo [] rest = [] := (wordsGo_nil_iff_normWs_nil rest).mpr hnil
            simp [this, joinSp, hnil]
          · have hwne : wordsGo [] rest ≠ [] := by
              intro h; exact hnil ((wordsGo_nil_iff_normWs_nil rest).mp h)
            rw [joinSp_cons _ _ hwne, iha]
            simp [hnil]
        rw [wordsGo, normWsGo]
        simpa [hws, List.isEmpty_iff, hcur] using hgoal
      · rw [wordsGo, normWsGo]
        have := ihb (c0 :: cur) (by simp)
        simp only [List.reverse_cons] at this
        simp [hws, this]

/-- C3: for every sentence produced by `parseArticle` (and in fact for every
string), the word sequence re-joined with single spaces equals the sentence
text with the fixed punctuation set removed and whitespace runs normalized
to single spaces, in original order — words are never reordered,
deduplicated or filtered. -/
theorem C3_words_join_to_normalized_text :
    (∀ text, joinSp (splitIntoWords text) = normalizeWs (stripPunct text)) ∧
    (∀ (readability : List Char → Option RArticle)
       (urlHost : List Char → Option (List Char))
       (html url : List Char) (art : ParsedArticle),
      parseArticle readability urlHost html url = .ok art →
      ∀ p ∈ art.paragraphs, ∀ s ∈ p.sentences,
        joinSp s.words = normalizeWs (stripPunct s.text)) := by
  have core : ∀ text, joinSp (splitIntoWords text) = normalizeWs (stripPunct text) := by
    intro text
    rw [splitIntoWords, (jsSplitT_eq_wordsGo (stripPunct text)).2.1,
      (joinSp_wordsGo (stripPunct text)).1]
    rfl
  refine ⟨core, fun readability urlHost html url art hart p hp s hs => ?_⟩
  rw [parseArticle] at hart
  cases hex : extractArticle readability urlHost html url with
  | error e => rw [hex] at hart; cases hart
  | ok ex =>
    rw [hex] at hart
    simp only [Except.ok.injEq] at hart
    subst hart
    simp only [List.mem_map] at hp
    obtain ⟨pt, _, hpeq⟩ := hp
    subst hpeq
    simp only [List.mem_map] at hs
    obtain ⟨st, _, hseq⟩ := hs
    subst hseq
    exact core st

/-! ### Claims C2 and C5: the sentence segmentation refinement

The code masks abbreviation periods with the token `<<<DOT>>>`, splits, then
unmasks.  The specification describes the result positionally: the text is
cut at every occurrence of a terminal punctuation character followed by
whitespace, except abbreviation periods.  The development below proves the
two agree for every input that does not already contain the masking token
(and refutes the unrestricted claims: a text containing `<<<DOT>>>` is
corrupted by the unmasking step). -/

/-- Does the text before a period end with one of the abbreviations?
`pre` is the reversed text preceding the period. -/
def abbrevBefore (pre : List Char) : Bool :=
  ABBREVIATIONS.any (fun a => a.reverse.isPrefixOf pre)

/-- Specification-side cut condition, evaluated at a whitespace character:
the piece so far (reversed, in `cur`) ends with a sentence terminator, and a
terminating period must not be an abbreviation period. -/
def specCut : List Char → Bool
  | [] => false
  | p :: pre => if p == '.' then !(abbrevBefore pre) else (p == '!' || p == '?')

/-- Modeless positional splitter: cut at every whitespace character where
`cond` holds of the reversed accumulated piece; the whitespace character
starts the next piece (pieces are trimmed afterwards, so this differs from
the run-consuming `jsSplitGo` only by leading whitespace of pieces). -/
def cutSplitGo (cond : List Char → Bool) : List Char → List Char → List (List Char)
  | cur, [] => [cur.reverse]
  | cur, c :: rest =>
    if jsWs c && cond cur then cur.reverse :: cutSplitGo cond [c] rest
    else cutSplitGo cond (c :: cur) rest

/-- Specification-side sentence segmentation: the trimmed, non-empty pieces
of the text cut at every occurrence of a terminal punctuation character
followed by whitespace, abbreviation periods excepted, the terminator kept
attached to the preceding piece. -/
def specSplitSentences (text : List Char) : List (List Char) :=
  ((cutSplitGo specCut [] text).map trim).filter (fun s => decide (0 < s.length))

/-- First abbreviation of `abbrs` whose pattern `<abbr>.` begins `t`. -/
def findMatch (abbrs : List (List Char)) (t : List Char) : Option (List Char) :=
  abbrs.find? (fun a => (a ++ ['.']).isPrefixOf t)

/-- Fueled single-pass multi-pattern masking scan: at each position, if some
abbreviation pattern `<abbr>.` starts here, emit `<abbr><<<DOT>>>` and skip
it; otherwise copy one character. -/
def maskScanGo (abbrs : List (List Char)) : Nat → List Char → List Char
  | 0, s => s
  | _ + 1, [] => []
  | fuel + 1, c :: rest =>
    match findMatch abbrs (c :: rest) with
    | some a => a ++ MASK ++ maskScanGo abbrs fuel ((c :: rest).drop (a.length + 1))
    | none => c :: maskScanGo abbrs fuel rest

/-- Single-pass multi-pattern masking scan (enough fuel). -/
def maskScan (abbrs : List (List Char)) (t : List Char) : List Char :=
  maskScanGo abbrs t.length t

/-- Substring test: does `p` occur contiguously in the second argument? -/
def hasSub (p : List Char) : List Char → Bool
  | [] => p.isEmpty
  | c :: rest => p.isPrefixOf (c :: rest) || hasSub p rest

/-- C2 counterexample: on the input `<<<DOT>>>` (which contains the masking
token), `splitIntoSentences` returns `["."]` — not the trimmed non-empty
pieces of the input (there is no terminator-followed-by-whitespace in it, so
the unique piece would be the input itself, as the positional specification
`specSplitSentences` computes). -/
theorem C2_counterexample :
    splitIntoSentences (("<<<DOT>>>").toList) = [(".".toList)] ∧
    specSplitSentences (("<<<DOT>>>").toList) = [("<<<DOT>>>".toList)] := by
  exact ⟨by decide, by decide⟩

/-- C5 counterexample: when the extracted body text contains the masking
token (`"a <<<DOT>>> b."`), the produced sentence text is `"a . b."`, which
is not a verbatim substring of the body text. -/
theorem C5_counterexample :
    parseArticle
      (fun _ => some { title := some ("T".toList),
                       textContent := some ("a <<<DOT>>> b.".toList) })
      (fun _ => some ("example.com".toList))
      ("<html>".toList) ("https://example.com/a".toList) =
      .ok { title := ("T".toList), source := ("example.com".toList),
            paragraphs :=
              [{ sentences := [{ text := ("a . b.".toList),
                                 words := [("a".toList), ("b".toList)] }] }] } ∧
    hasSub ("a . b.".toList) ("a <<<DOT>>> b.".toList) = false := by
  exact ⟨by rfl, by decide⟩

/-! #### Theory of `replaceAll` -/

/-- Fuel irrelevance: any fuel at least the input length computes
`replaceAll` (the pattern must be non-empty so that each step consumes at
least one character). -/
theorem replaceAllGo_fuel (pat repl : List Char) (hpat : pat ≠ []) :
    ∀ (f : Nat) (s : List Char), s.length ≤ f →
      replaceAllGo pat repl f s = replaceAll pat repl s := by
  intro f
  induction f using Nat.strong_induction_on with
  | _ f ih =>
    intro s hle
    match f, s with
    | f, [] =>
      cases f <;> rfl
    | 0, c :: rest => simp at hle
    | f + 1, c :: rest =>
      have hlen1 : (c :: rest).length = rest.length + 1 := rfl
      rw [replaceAll, hlen1]
      simp only [replaceAllGo]
      have hplen : 1 ≤ pat.length := by
        cases pat with
        | nil => exact absurd rfl hpat
        | cons p ps => simp
      by_cases hp : pat.isPrefixOf (c :: rest) = true
      · rw [if_pos hp, if_pos hp]
        congr 1
        have hdl : ((c :: rest).drop pat.length).length ≤ rest.length := by
          rw [List.length_drop, hlen1]
          omega
        have h1 : replaceAllGo pat repl f ((c :: rest).drop pat.length) =
            replaceAll pat repl ((c :: rest).drop pat.length) := by
          refine ih f (by omega) _ ?_
          have : rest.length ≤ f := by simpa [hlen1] using hle
          omega
        have h2 : replaceAllGo pat repl rest.length ((c :: rest).drop pat.length) =
            replaceAll pat repl ((c :: rest).drop pat.length) := by
          refine ih rest.length (by omega) _ hdl
        rw [h1, h2]
      · rw [if_neg hp, if_neg hp]
        congr 1
        have h1 : replaceAllGo pat repl f rest = replaceAll pat repl rest := by
          refine ih f (by omega) _ ?_
          have : rest.length + 1 ≤ f + 1 := by simpa [hlen1] using hle
          omega
        have h2 : replaceAllGo pat repl rest.length rest = replaceAll pat repl rest :=
          ih rest.length (by omega) _ (le_refl _)
        rw [h1, h2]

/-- A step of `replaceAll` on a position where the pattern does not match. -/
theorem replaceAll_cons_nomatch (pat repl : List Char) (hpat : pat ≠ []) (c : Char)
    (s : List Char) (h : ¬ pat.isPrefixOf (c :: s) = true) :
    replaceAll pat repl (c :: s) = c :: replaceAll pat repl s := by
  rw [replaceAll]
  have hl : (c :: s).length = s.length + 1 := rfl
  rw [hl]
  simp only [replaceAllGo, if_neg h]
  rw [replaceAllGo_fuel pat repl hpat s.length s (le_refl _)]

/-- A step of `replaceAll` on a position where the pattern matches. -/
theorem replaceAll_head (pat repl y : List Char) (hpat : pat ≠ []) :
    replaceAll pat repl (pat ++ y) = repl ++ replaceAll pat repl y := by
  cases pat with
  | nil => exact absurd rfl hpat
  | cons p ps =>
    rw [replaceAll]
    have hlen : ((p :: ps) ++ y).length = (ps ++ y).length + 1 := by simp
    rw [hlen]
    simp only [replaceAllGo, List.append_eq]
    rw [← List.cons_append]
    have hpre : (p :: ps).isPrefixOf ((p :: ps) ++ y) = true :=
      List.isPrefixOf_iff_prefix.mpr (List.prefix_append _ _)
    rw [if_pos hpre]
    congr 1
    rw [List.drop_left]
    refine replaceAllGo_fuel _ _ hpat _ _ ?_
    simp

/-- The per-position cleanness test used to commute `replaceAll` past a
prefix: at no start position inside `x` can `pat` match or begin to match. -/
def cleanPref (x pat : List Char) : Bool :=
  (List.range x.length).all
    (fun j => !((pat.isPrefixOf (x.drop j)) || ((x.drop j).isPrefixOf pat)))

theorem cleanPref_head {c : Char} {xs pat : List Char}
    (h : cleanPref (c :: xs) pat = true) :
    pat.isPrefixOf (c :: xs) = false ∧ (c :: xs).isPrefixOf pat = false := by
  have h0 := List.all_eq_true.mp h 0 (by simp [List.mem_range])
  simp only [List.drop_zero, Bool.not_eq_true', Bool.or_eq_false_iff] at h0
  exact h0

theorem cleanPref_tail {c : Char} {xs pat : List Char}
    (h : cleanPref (c :: xs) pat = true) : cleanPref xs pat = true := by
  rw [cleanPref, List.all_eq_true]
  intro j hj
  have := List.all_eq_true.mp h (j + 1)
    (by simp only [List.mem_range] at hj ⊢; simpa using Nat.succ_lt_succ hj)
  simpa using this

/-- A pattern that can neither match inside `x` nor begin a match that `y`
could complete commutes `replaceAll` past `x`. -/
theorem replaceAll_append_clean (pat repl : List Char) (hpat : pat ≠ []) :
    ∀ (x y : List Char), cleanPref x pat = true →
      replaceAll pat repl (x ++ y) = x ++ replaceAll pat repl y := by
  intro x
  induction x with
  | nil => intro y _; rfl
  | cons c xs ih =>
    intro y hclean
    obtain ⟨h1, h2⟩ := cleanPref_head hclean
    have h0 : ¬ pat.isPrefixOf ((c :: xs) ++ y) = true := by
      intro hcontra
      rcases List.prefix_or_prefix_of_prefix (List.isPrefixOf_iff_prefix.mp hcontra)
          (List.prefix_append (c :: xs) y) with h | h
      · rw [List.isPrefixOf_iff_prefix.mpr h] at h1; cases h1
      · rw [List.isPrefixOf_iff_prefix.mpr h] at h2; cases h2
    rw [List.cons_append, replaceAll_cons_nomatch pat repl hpat c (xs ++ y) h0]
    rw [ih y (cleanPref_tail hclean)]
    rfl

/-! #### Theory of the one-pass masking scan -/

/-- Fuel irrelevance for `maskScanGo`: every step consumes at least one
character. -/
theorem maskScanGo_fuel (L : List (List Char)) :
    ∀ (f : Nat) (s : List Char), s.length ≤ f → maskScanGo L f s = maskScan L s := by
  intro f
  induction f using Nat.strong_induction_on with
  | _ f ih =>
    intro s hle
    match f, s with
    | f, [] => cases f <;> rfl
    | 0, c :: rest => simp at hle
    | f + 1, c :: rest =>
      have hlen1 : (c :: rest).length = rest.length + 1 := rfl
      have hrl : rest.length ≤ f := by
        rw [hlen1] at hle; omega
      cases hm : findMatch L (c :: rest) with
      | some a =>
        rw [maskScan, hlen1]
        simp only [maskScanGo, hm]
        congr 1
        have hdl : ((c :: rest).drop (a.length + 1)).length ≤ rest.length := by
          rw [List.length_drop, hlen1]; omega
        rw [ih f (by omega) _ (le_trans hdl hrl),
          ih rest.length (by omega) _ hdl]
      | none =>
        rw [maskScan, hlen1]
        simp only [maskScanGo, hm]
        congr 1
        rw [ih f (by omega) _ hrl, ih rest.length (by omega) _ (le_refl _)]

/-- Scan step at a position where an abbreviation pattern matches. -/
theorem maskScan_match (L : List (List Char)) (t a : List Char)
    (h : findMatch L t = some a) :
    maskScan L t = a ++ MASK ++ maskScan L (t.drop (a.length + 1)) := by
  cases t with
  | nil =>
    exfalso
    have h' : L.find? (fun x => (x ++ ['.']).isPrefixOf ([] : List Char)) = some a := h
    have hp : (a ++ ['.']).isPrefixOf ([] : List Char) = true := by
      have := List.find?_some h'
      exact this
    have := List.IsPrefix.length_le (List.isPrefixOf_iff_prefix.mp hp)
    simp at this
  | cons c rest =>
    rw [maskScan, show (c :: rest).length = rest.length + 1 from rfl]
    simp only [maskScanGo, h]
    congr 1
    refine maskScanGo_fuel L rest.length _ ?_
    rw [List.length_drop]
    simp only [List.length_cons]
    omega

/-- Scan step at a position where no abbreviation pattern matches. -/
theorem maskScan_nomatch (L : List (List Char)) (c : Char) (t' : List Char)
    (h : findMatch L (c :: t') = none) :
    maskScan L (c :: t') = c :: maskScan L t' := by
  rw [maskScan, show (c :: t').length = t'.length + 1 from rfl]
  simp only [maskScanGo, h]
  rw [maskScanGo_fuel L t'.length t' (le_refl _)]

/-- Scanning with no abbreviations copies the text. -/
theorem maskScan_nilL : ∀ t, maskScan [] t = t := by
  intro t
  induction t with
  | nil => rfl
  | cons c rest ih => rw [maskScan_nomatch [] c rest rfl, ih]

theorem findMatch_append_left {L1 L2 : List (List Char)} {t a : List Char}
    (h : findMatch L1 t = some a) : findMatch (L1 ++ L2) t = some a := by
  rw [findMatch, List.find?_append]
  rw [findMatch] at h
  rw [h]; rfl

theorem findMatch_append_right {L1 L2 : List (List Char)} {t : List Char}
    (h : findMatch L1 t = none) : findMatch (L1 ++ L2) t = findMatch L2 t := by
  rw [findMatch, List.find?_append]
  rw [findMatch] at h
  rw [h]; rfl

theorem findMatch_none {L : List (List Char)} {t : List Char}
    (h : findMatch L t = none) :
    ∀ a ∈ L, (a ++ ['.']).isPrefixOf t = false := by
  intro a ha
  have h' : L.find? (fun x => (x ++ ['.']).isPrefixOf t) = none := h
  have h2 := List.find?_eq_none.mp h' a ha
  simp only [Bool.not_eq_true] at h2
  exact h2

/-- The scan distributes over an append when no pattern can match starting
inside the left part. -/
theorem maskScan_append (L : List (List Char)) :
    ∀ (x y : List Char),
      (∀ j, j < x.length → findMatch L (x.drop j ++ y) = none) →
      maskScan L (x ++ y) = x ++ maskScan L y := by
  intro x
  induction x with
  | nil => intro y _; rfl
  | cons c xs ih =>
    intro y h
    have h0 : findMatch L ((c :: xs) ++ y) = none := by
      simpa using h 0 (by simp)
    rw [List.cons_append, maskScan_nomatch L c (xs ++ y) (by simpa using h0)]
    rw [ih y (fun j hj => by simpa using h (j + 1) (by simpa using Nat.succ_lt_succ hj))]
    rfl

/-- Structure of a scanned string: it is the original, or the original up to
the first masked occurrence followed by a scan of the remainder. -/
theorem maskScan_structure_n (L : List (List Char)) :
    ∀ (n : Nat) (t : List Char), t.length ≤ n →
      (maskScan L t = t ∨
        ∃ u a rest, a ∈ L ∧ t = u ++ (a ++ ['.']) ++ rest ∧
          maskScan L t = u ++ (a ++ MASK) ++ maskScan L rest) := by
  intro n
  induction n with
  | zero =>
    intro t ht
    left
    have : t = [] := List.length_eq_zero.mp (Nat.le_zero.mp ht)
    rw [this]; rfl
  | succ n ih =>
    intro t ht
    cases t with
    | nil => left; rfl
    | cons c rest =>
      cases hm : findMatch L (c :: rest) with
      | none =>
        rcases ih rest (by simp only [List.length_cons] at ht; omega) with h | ⟨u, a, r, ha, heq, hscan⟩
        · left; rw [maskScan_nomatch L c rest hm, h]
        · right
          refine ⟨c :: u, a, r, ha, ?_, ?_⟩
          · rw [List.cons_append, List.cons_append, ← heq]
          · rw [maskScan_nomatch L c rest hm, hscan]; rfl
      | some a =>
        right
        have hm' : L.find? (fun x => (x ++ ['.']).isPrefixOf (c :: rest)) = some a := hm
        have hp : (a ++ ['.']).isPrefixOf (c :: rest) = true := by
          have := List.find?_some hm'
          exact this
        have ha : a ∈ L := List.mem_of_find?_eq_some hm'
        have hsplit : (c :: rest) = (a ++ ['.']) ++ (c :: rest).drop (a.length + 1) := by
          have h1 := List.prefix_iff_eq_append.mp (List.isPrefixOf_iff_prefix.mp hp)
          have hlen : (a ++ ['.']).length = a.length + 1 := by simp
          rw [hlen] at h1
          exact h1.symm
        refine ⟨[], a, (c :: rest).drop (a.length + 1), ha, by simpa using hsplit, ?_⟩
        rw [maskScan_match L _ a hm]
        simp

/-- Structure of a scanned string (top-level form). -/
theorem maskScan_structure (L : List (List Char)) (t : List Char) :
    maskScan L t = t ∨
      ∃ u a rest, a ∈ L ∧ t = u ++ (a ++ ['.']) ++ rest ∧
        maskScan L t = u ++ (a ++ MASK) ++ maskScan L rest :=
  maskScan_structure_n L t.length t (le_refl _)

/-- A pattern containing no opening angle bracket that is a prefix of the
scanned string is already a prefix of the original string. -/
theorem maskScan_prefix_reflect (L : List (List Char)) (p t : List Char)
    (hlt : '<' ∉ p) (h : p <+: maskScan L t) : p <+: t := by
  rcases maskScan_structure L t with heq | ⟨u, a, rest, _, heqt, hscan⟩
  · rwa [heq] at h
  · rw [hscan] at h
    have hmask : MASK = '<' :: ("<<DOT>>>".toList) := by decide
    have hz : u ++ (a ++ MASK) ++ maskScan L rest =
        (u ++ a) ++ ('<' :: (("<<DOT>>>".toList) ++ maskScan L rest)) := by
      rw [hmask]; simp
    rw [hz] at h
    have hptake := List.prefix_iff_eq_take.mp h
    by_cases hle : p.length ≤ (u ++ a).length
    · have h1 : p <+: (u ++ a) := by
        rw [List.take_append_of_le_length hle] at hptake
        rw [hptake]
        exact List.take_prefix _ _
      have h2 : (u ++ a) <+: t := by
        rw [heqt, show u ++ (a ++ ['.']) ++ rest = (u ++ a) ++ ('.' :: rest) by simp]
        exact List.prefix_append _ _
      exact h1.trans h2
    · exfalso
      have hm : p.length = (u ++ a).length + (p.length - (u ++ a).length) := by omega
      have hpos : 0 < p.length - (u ++ a).length := by omega
      rw [hm, List.take_append] at hptake
      apply hlt
      rw [hptake]
      refine List.mem_append.mpr (Or.inr ?_)
      cases hd : p.length - (u ++ a).length with
      | zero => omega
      | succ m => simp [hd]

/-! #### The sequential masking passes equal the one-pass scan -/

/-- No abbreviation pattern can match, or begin a completable match, at any
position inside a masked region `<abbr><<<DOT>>>`. -/
theorem cleanMask_pairs : ∀ a ∈ ABBREVIATIONS, ∀ b ∈ ABBREVIATIONS,
    cleanPref (a ++ MASK) (b ++ ['.']) = true := by decide

/-- No abbreviation pattern can match, or begin a completable match, at any
interior position of another pattern `<abbr>.` (position `0` excepted). -/
theorem interior_pairs : ∀ a ∈ ABBREVIATIONS, ∀ b ∈ ABBREVIATIONS,
    ∀ j ∈ List.range (a ++ ['.']).length, j = 0 ∨
      ((b ++ ['.']).isPrefixOf ((a ++ ['.']).drop j) = false ∧
       ((a ++ ['.']).drop j).isPrefixOf (b ++ ['.']) = false) := by decide

/-- Basic facts about the abbreviation patterns. -/
theorem abbrev_facts : ∀ a ∈ ABBREVIATIONS, a ≠ [] ∧ '<' ∉ (a ++ ['.']) := by decide

/-- One `replaceAll` pass for the abbreviation `b` turns a scan over `L`
into a scan over `L ++ [b]`. -/
theorem pass_maskScan (L : List (List Char)) (hL : ∀ x ∈ L, x ∈ ABBREVIATIONS)
    (b : List Char) (hb : b ∈ ABBREVIATIONS) :
    ∀ (n : Nat) (t : List Char), t.length ≤ n →
      replaceAll (b ++ ['.']) (b ++ MASK) (maskScan L t) = maskScan (L ++ [b]) t := by
  have hbne : (b ++ ['.']) ≠ [] := by simp
  intro n
  induction n with
  | zero =>
    intro t ht
    have ht0 : t = [] := List.length_eq_zero.mp (Nat.le_zero.mp ht)
    subst ht0
    rfl
  | succ n ih =>
    intro t ht
    cases t with
    | nil => rfl
    | cons c rest =>
      have hrl : rest.length ≤ n := by
        simp only [List.length_cons] at ht; omega
      cases hm : findMatch L (c :: rest) with
      | some a =>
        have ha : a ∈ L :=
          List.mem_of_find?_eq_some (show L.find? _ = some a from hm)
        rw [maskScan_match L _ a hm,
          maskScan_match (L ++ [b]) _ a (findMatch_append_left hm)]
        rw [replaceAll_append_clean _ _ hbne (a ++ MASK) _ (cleanMask_pairs a (hL a ha) b hb)]
        rw [ih _ (by rw [List.length_drop]; simp only [List.length_cons]; omega)]
      | none =>
        by_cases hb2 : (b ++ ['.']).isPrefixOf (c :: rest) = true
        · have hsplit : (c :: rest) = (b ++ ['.']) ++ (c :: rest).drop (b.length + 1) := by
            have h1 := List.prefix_iff_eq_append.mp (List.isPrefixOf_iff_prefix.mp hb2)
            rw [show (b ++ ['.']).length = b.length + 1 from by simp] at h1
            exact h1.symm
          have hcond : ∀ j, j < (b ++ ['.']).length →
              findMatch L ((b ++ ['.']).drop j ++ (c :: rest).drop (b.length + 1)) = none := by
            intro j hj
            cases Nat.eq_zero_or_pos j with
            | inl hj0 =>
              subst hj0
              rw [List.drop_zero, ← hsplit]
              exact hm
            | inr hjpos =>
              refine List.find?_eq_none.mpr ?_
              intro x hx
              simp only [Bool.not_eq_true]
              rcases interior_pairs b hb x (hL x hx) j (List.mem_range.mpr hj) with h0 | ⟨hA, hB⟩
              · omega
              · rw [Bool.eq_false_iff]
                intro hcontra
                rcases List.prefix_or_prefix_of_prefix (List.isPrefixOf_iff_prefix.mp hcontra)
                    (List.prefix_append ((b ++ ['.']).drop j) _) with hh | hh
                · rw [List.isPrefixOf_iff_prefix.mpr hh] at hA; cases hA
                · rw [List.isPrefixOf_iff_prefix.mpr hh] at hB; cases hB
          have hscan : maskScan L (c :: rest) =
              (b ++ ['.']) ++ maskScan L ((c :: rest).drop (b.length + 1)) := by
            conv_lhs => rw [hsplit]
            exact maskScan_append L (b ++ ['.']) _ hcond
          have hm2 : findMatch (L ++ [b]) (c :: rest) = some b := by
            rw [findMatch_append_right hm, findMatch]
            simp only [List.find?]
            rw [hb2]
          rw [hscan, replaceAll_head _ _ _ hbne,
            ih _ (by rw [List.length_drop]; simp only [List.length_cons]; omega),
            maskScan_match (L ++ [b]) _ b hm2]
        · have hm2 : findMatch (L ++ [b]) (c :: rest) = none := by
            rw [findMatch_append_right hm, findMatch]
            simp only [List.find?]
            rw [Bool.eq_false_iff.mpr hb2]
          rw [maskScan_nomatch L c rest hm, maskScan_nomatch (L ++ [b]) c rest hm2]
          have hnp : ¬ (b ++ ['.']).isPrefixOf (c :: maskScan L rest) = true := by
            intro hcontra
            have h1 : (b ++ ['.']) <+: maskScan L (c :: rest) := by
              rw [maskScan_nomatch L c rest hm]
              exact List.isPrefixOf_iff_prefix.mp hcontra
            have h2 := maskScan_prefix_reflect L (b ++ ['.']) (c :: rest)
              ((abbrev_facts b hb).2) h1
            exact hb2 (List.isPrefixOf_iff_prefix.mpr h2)
          rw [replaceAll_cons_nomatch _ _ hbne c _ hnp]
          rw [ih rest hrl]

/-- The source's seven sequential masking passes compute exactly the one-pass
multi-pattern scan over the abbreviation list. -/
theorem maskAbbrs_eq_maskScan (t : List Char) :
    maskAbbrs t = maskScan ABBREVIATIONS t := by
  rw [maskAbbrs]
  suffices h : ∀ L, (∀ x ∈ L, x ∈ ABBREVIATIONS) →
      L.foldl (fun acc abbr => replaceAll (abbr ++ ['.']) (abbr ++ MASK) acc) t =
        maskScan L t from h ABBREVIATIONS (fun x hx => hx)
  intro L
  induction L using List.reverseRecOn with
  | nil => intro _; rw [maskScan_nilL]; rfl
  | append_singleton L b ihL =>
    intro hL
    rw [List.foldl_append]
    simp only [List.foldl_cons, List.foldl_nil]
    rw [ihL (fun x hx => hL x (List.mem_append.mpr (Or.inl hx)))]
    exact pass_maskScan L (fun x hx => hL x (List.mem_append.mpr (Or.inl hx))) b
      (hL b (List.mem_append.mpr (Or.inr (List.mem_singleton.mpr rfl)))) t.length t (le_refl _)

/-! #### Atoms: the common shape of the original and the masked text -/

/-- An atom of the scanned text: a plain character, or an abbreviation whose
period was masked (`ab a` stands for `<a>.` in the original text and for
`<a><<<DOT>>>` in the masked text). -/
inductive SAtom where
  | chr (c : Char)
  | ab (a : List Char)
deriving DecidableEq, Repr

/-- Original rendering of an atom list. -/
def render : List SAtom → List Char
  | [] => []
  | .chr c :: rest => c :: render rest
  | .ab a :: rest => a ++ ['.'] ++ render rest

/-- Masked rendering of an atom list. -/
def renderM : List SAtom → List Char
  | [] => []
  | .chr c :: rest => c :: renderM rest
  | .ab a :: rest => a ++ MASK ++ renderM rest

/-- Well-formed atoms: every abbreviation atom is from the fixed list. -/
def WfAtoms (atoms : List SAtom) : Prop :=
  ∀ a : List Char, SAtom.ab a ∈ atoms → a ∈ ABBREVIATIONS

theorem render_append (x y : List SAtom) : render (x ++ y) = render x ++ render y := by
  induction x with
  | nil => rfl
  | cons hd tl ih => cases hd <;> simp [render, ih]

theorem renderM_append (x y : List SAtom) : renderM (x ++ y) = renderM x ++ renderM y := by
  induction x with
  | nil => rfl
  | cons hd tl ih => cases hd <;> simp [renderM, ih]

/-- `hasSub` decides the infix relation. -/
theorem hasSub_iff_occurs (p : List Char) : ∀ s, hasSub p s = true ↔ p <:+: s := by
  intro s
  induction s with
  | nil =>
    simp only [hasSub, List.isEmpty_iff]
    constructor
    · intro h; rw [h]
    · intro h; simpa using List.IsInfix.length_le h
  | cons c rest ih =>
    simp only [hasSub, Bool.or_eq_true, ih, List.infix_cons_iff, List.isPrefixOf_iff_prefix]

/-- A suffix of the masking token that is a prefix of the masked rendering is
a prefix of the original rendering (the masked regions cannot host it). -/
theorem renderM_prefix_reflect :
    ∀ (atoms : List SAtom), WfAtoms atoms → ∀ p, p <:+ MASK →
      p <+: renderM atoms → p <+: render atoms := by
  intro atoms
  induction atoms with
  | nil =>
    intro _ p _ hp
    exact hp
  | cons hd tl ih =>
    intro hwf p hsuf hp
    have hwf' : WfAtoms tl := fun a ha => hwf a (List.mem_cons_of_mem _ ha)
    cases hd with
    | chr c =>
      cases p with
      | nil => exact List.nil_prefix
      | cons q qs =>
        rw [render]
        rw [renderM] at hp
        rcases List.cons_prefix_cons.mp hp with ⟨hq, hqs⟩
        subst hq
        refine List.cons_prefix_cons.mpr ⟨rfl, ih hwf' qs ?_ hqs⟩
        exact (List.suffix_cons q qs).trans hsuf
    | ab a =>
      cases p with
      | nil => exact List.nil_prefix
      | cons q qs =>
        exfalso
        have ha : a ∈ ABBREVIATIONS := hwf a (List.mem_cons_self _ _)
        rw [renderM, List.append_assoc] at hp
        -- the suffix q :: qs of MASK would have to match at the start of a ++ (MASK ++ _)
        obtain ⟨u, hu⟩ := hsuf
        have hdrop : (q :: qs) = MASK.drop u.length := by rw [← hu, List.drop_left]
        have hlt : u.length < MASK.length := by
          have := congrArg List.length hu
          simp only [List.length_append, List.length_cons] at this
          have hm9 : MASK.length = 9 := by decide
          omega
        have hfacts : ∀ b ∈ ABBREVIATIONS, ∀ d ∈ List.range MASK.length,
            (MASK.drop d).isPrefixOf (b ++ MASK) = false ∧ 2 ≤ b.length := by decide
        obtain ⟨hpref, hblen⟩ := hfacts a ha u.length (List.mem_range.mpr hlt)
        rcases List.prefix_or_prefix_of_prefix hp (List.prefix_append a (MASK ++ renderM tl))
          with hh | hh
        · -- q :: qs <+: a, but then it is a prefix of a ++ MASK as well
          have : (q :: qs) <+: a ++ MASK := hh.trans (List.prefix_append a MASK)
          rw [hdrop] at this
          rw [List.isPrefixOf_iff_prefix.mpr this] at hpref
          cases hpref
        · -- a <+: q :: qs : then a ++ MASK-tail matches inside MASK; rule out by length and content
          -- q :: qs is a suffix of MASK of length ≤ 9; but then q :: qs <+: a ++ MASK would hold
          -- only through the same decided fact; derive it:
          have hlen2 : (q :: qs).length ≤ (a ++ MASK).length := by
            have hql := congrArg List.length hu
            simp only [List.length_append] at hql
            have hm9 : MASK.length = 9 := by decide
            simp only [List.length_append]
            omega
          have htake := List.prefix_iff_eq_take.mp hp
          rw [show a ++ (MASK ++ renderM tl) = (a ++ MASK) ++ renderM tl from by simp] at htake
          rw [List.take_append_of_le_length hlen2] at htake
          have : (q :: qs) <+: a ++ MASK := by
            rw [htake]; exact List.take_prefix _ _
          rw [hdrop] at this
          rw [List.isPrefixOf_iff_prefix.mpr this] at hpref
          cases hpref

/-- The masking token cannot match starting anywhere inside an abbreviation
(abbreviations contain no angle brackets). -/
theorem cleanAbbrev_mask : ∀ a ∈ ABBREVIATIONS, cleanPref a MASK = true := by decide

/-- A well-formed atom rendering whose original text does not contain the
masking token unmasks exactly to the original text. -/
theorem unmask_renderM :
    ∀ (atoms : List SAtom), WfAtoms atoms → ¬ (MASK <:+: render atoms) →
      unmask (renderM atoms) = render atoms := by
  intro atoms
  induction atoms with
  | nil => intro _ _; rfl
  | cons hd tl ih =>
    intro hwf hmf
    have hwf' : WfAtoms tl := fun a ha => hwf a (List.mem_cons_of_mem _ ha)
    cases hd with
    | chr c =>
      have hmf' : ¬ (MASK <:+: render tl) := fun h => hmf (by
        simp only [render]
        exact h.trans (List.suffix_cons c (render tl)).isInfix)
      have hnp : ¬ MASK.isPrefixOf (c :: renderM tl) = true := by
        intro hcontra
        have h2 := renderM_prefix_reflect (SAtom.chr c :: tl) hwf MASK (List.suffix_refl _)
          (by simp only [renderM]; exact List.isPrefixOf_iff_prefix.mp hcontra)
        exact hmf h2.isInfix
      simp only [renderM, render]
      rw [unmask, replaceAll_cons_nomatch MASK ['.'] (by decide) c _ hnp]
      rw [show replaceAll MASK ['.'] (renderM tl) = unmask (renderM tl) from rfl]
      rw [ih hwf' hmf']
    | ab a =>
      have ha : a ∈ ABBREVIATIONS := hwf a (List.mem_cons_self _ _)
      have hmf' : ¬ (MASK <:+: render tl) := fun h => hmf (by
        simp only [render]
        exact h.trans (List.suffix_append (a ++ ['.']) (render tl)).isInfix)
      simp only [renderM, render]
      rw [unmask, List.append_assoc]
      rw [replaceAll_append_clean MASK ['.'] (by decide) a _ (cleanAbbrev_mask a ha)]
      rw [replaceAll_head MASK ['.'] _ (by decide)]
      rw [show replaceAll MASK ['.'] (renderM tl) = unmask (renderM tl) from rfl]
      rw [ih hwf' hmf']
      simp

/-- `cutSplitGo` pushes a whitespace-free block without cutting. -/
theorem cutSplitGo_push (cond : List Char → Bool) :
    ∀ (x : List Char), (∀ ch ∈ x, jsWs ch = false) →
      ∀ (cur y : List Char),
        cutSplitGo cond cur (x ++ y) = cutSplitGo cond (x.reverse ++ cur) y := by
  intro x
  induction x with
  | nil => intro _ cur y; rfl
  | cons c xs ih =>
    intro hx cur y
    rw [List.cons_append]
    simp only [cutSplitGo]
    rw [if_neg (by simp [hx c (List.mem_cons_self _ _)])]
    rw [ih (fun ch hch => hx ch (List.mem_cons_of_mem _ hch)) (c :: cur) y]
    simp

/-- A whitespace character is not a sentence terminator. -/
theorem ws_not_term (c : Char) (h : jsWs c = true) : isTerm c = false := by
  have hdot : c ≠ '.' := fun he => absurd (he ▸ h) (by decide)
  have hexc : c ≠ '!' := fun he => absurd (he ▸ h) (by decide)
  have hq : c ≠ '?' := fun he => absurd (he ▸ h) (by decide)
  simp [isTerm, hdot, hexc, hq]

/-- Text ending with an abbreviation satisfies `abbrevBefore`. -/
theorem abbrevBefore_append (a : List Char) (ha : a ∈ ABBREVIATIONS) (x : List Char) :
    abbrevBefore (a.reverse ++ x) = true := by
  rw [abbrevBefore, List.any_eq_true]
  exact ⟨a, ha, List.isPrefixOf_iff_prefix.mpr (List.prefix_append _ _)⟩

/-- Post-processing of the code side: unmask, trim, drop empty pieces. -/
def pieceMapM (l : List (List Char)) : List (List Char) :=
  (l.map (fun s => trim (unmask s))).filter (fun s => decide (0 < s.length))

/-- Post-processing of the specification side: trim, drop empty pieces. -/
def pieceMapS (l : List (List Char)) : List (List Char) :=
  (l.map trim).filter (fun s => decide (0 < s.length))

theorem pieceMapM_congr_cons {p1 p2 : List Char} {l1 l2 : List (List Char)}
    (hp : trim (unmask p1) = trim (unmask p2)) (hl : pieceMapM l1 = pieceMapM l2) :
    pieceMapM (p1 :: l1) = pieceMapM (p2 :: l2) := by
  simp only [pieceMapM, List.map_cons, List.filter_cons] at *
  rw [hp, hl]

theorem pieceMapMS_cons {p1 p2 : List Char} {l1 l2 : List (List Char)}
    (hp : trim (unmask p1) = trim p2) (hl : pieceMapM l1 = pieceMapS l2) :
    pieceMapM (p1 :: l1) = pieceMapS (p2 :: l2) := by
  simp only [pieceMapM, pieceMapS, List.map_cons, List.filter_cons] at *
  rw [hp, hl]

theorem dropWhile_ws_append (w : List Char) (hw : ∀ x ∈ w, jsWs x = true) (z : List Char) :
    (w ++ z).dropWhile jsWs = z.dropWhile jsWs := by
  induction w with
  | nil => rfl
  | cons c cs ih =>
    rw [List.cons_append, List.dropWhile_cons, if_pos (hw c (List.mem_cons_self _ _))]
    exact ih (fun x hx => hw x (List.mem_cons_of_mem _ hx))

theorem trim_ws_append (w : List Char) (hw : ∀ x ∈ w, jsWs x = true) (z : List Char) :
    trim (w ++ z) = trim z := by
  rw [trim, trim, dropWhile_ws_append w hw z]

/-- The masking token cannot match, or begin to match, inside whitespace. -/
theorem cleanPref_ws (w : List Char) (hw : ∀ x ∈ w, jsWs x = true) :
    cleanPref w MASK = true := by
  rw [cleanPref, List.all_eq_true]
  intro j hj
  rw [List.mem_range] at hj
  have hne : w.drop j ≠ [] := by
    intro h
    have := congrArg List.length h
    simp only [List.length_drop, List.length_nil] at this
    omega
  obtain ⟨d, ds, hds⟩ := List.exists_cons_of_ne_nil hne
  have hd : jsWs d = true := hw d (List.drop_subset j w (by rw [hds]; exact List.mem_cons_self _ _))
  have hdne : d ≠ '<' := fun he => absurd (he ▸ hd) (by decide)
  rw [hds]
  simp only [Bool.not_eq_true', Bool.or_eq_false_iff]
  constructor
  · rw [Bool.eq_false_iff]
    intro hcontra
    have h1 := List.isPrefixOf_iff_prefix.mp hcontra
    rw [show MASK = '<' :: ("<<DOT>>>".toList) from by decide] at h1
    exact hdne (List.cons_prefix_cons.mp h1).1.symm
  · rw [Bool.eq_false_iff]
    intro hcontra
    have h1 := List.isPrefixOf_iff_prefix.mp hcontra
    rw [show MASK = '<' :: ("<<DOT>>>".toList) from by decide] at h1
    exact hdne (List.cons_prefix_cons.mp h1).1

/-- Leading whitespace does not change the unmasked, trimmed piece. -/
theorem trimUnmask_ws (w z : List Char) (hw : ∀ x ∈ w, jsWs x = true) :
    trim (unmask (w ++ z)) = trim (unmask z) := by
  rw [unmask, replaceAll_append_clean MASK ['.'] (by decide) w z (cleanPref_ws w hw)]
  rw [show replaceAll MASK ['.'] z = unmask z from rfl]
  exact trim_ws_append w hw (unmask z)

/-- The run-consuming JavaScript split and the modeless positional split
agree after unmasking/trimming and dropping empty pieces: the whitespace run
consumed by the JavaScript regex becomes leading whitespace of the next
piece in the modeless split, which trimming removes. -/
theorem jsSplit_cutSplit_headTerm :
    ∀ (s : List Char),
      (∀ (cur junk : List Char), (∀ x ∈ junk, jsWs x = true) →
        pieceMapM (jsSplitGo headTerm cur false s) =
          pieceMapM (cutSplitGo headTerm (cur ++ junk) s)) ∧
      (∀ junk : List Char, (∀ x ∈ junk, jsWs x = true) →
        pieceMapM (jsSplitGo headTerm [] true s) =
          pieceMapM (cutSplitGo headTerm junk s)) := by
  intro s
  induction s with
  | nil =>
    constructor
    · intro cur junk hjunk
      simp only [jsSplitGo, cutSplitGo]
      refine pieceMapM_congr_cons ?_ rfl
      rw [List.reverse_append]
      exact (trimUnmask_ws junk.reverse cur.reverse
        (fun x hx => hjunk x (List.mem_reverse.mp hx))).symm
    · intro junk hjunk
      simp only [jsSplitGo, cutSplitGo]
      refine pieceMapM_congr_cons ?_ rfl
      have h1 := trimUnmask_ws junk.reverse []
        (fun x hx => hjunk x (List.mem_reverse.mp hx))
      rw [List.append_nil] at h1
      exact h1.symm
  | cons c rest ih =>
    obtain ⟨iha, ihb⟩ := ih
    constructor
    · intro cur junk hjunk
      by_cases hcut : (jsWs c && headTerm cur) = true
      · rw [Bool.and_eq_true] at hcut
        have hcur_ne : cur ≠ [] := by
          intro h
          rw [h] at hcut
          simp [headTerm] at hcut
        have hml : headTerm (cur ++ junk) = true := by
          cases cur with
          | nil => exact absurd rfl hcur_ne
          | cons a as => simpa [headTerm] using hcut.2
        simp only [jsSplitGo, cutSplitGo]
        rw [if_pos (by simp [hcut.1, hcut.2]), if_pos (by simp [hcut.1, hml])]
        refine pieceMapM_congr_cons ?_ ?_
        · rw [List.reverse_append]
          exact (trimUnmask_ws junk.reverse cur.reverse
            (fun x hx => hjunk x (List.mem_reverse.mp hx))).symm
        · refine ihb [c] ?_
          intro x hx
          rw [List.mem_singleton.mp hx]
          exact hcut.1
      · have hml : (jsWs c && headTerm (cur ++ junk)) = false := by
          cases hws : jsWs c with
          | false => simp
          | true =>
            have hterm : headTerm cur = false := by
              cases hht : headTerm cur with
              | false => rfl
              | true => exact absurd (by rw [hws, hht]; rfl) hcut
            cases cur with
            | nil =>
              simp only [List.nil_append]
              cases junk with
              | nil => simp [headTerm]
              | cons j js =>
                simp [headTerm, ws_not_term j (hjunk j (List.mem_cons_self _ _))]
            | cons a as =>
              simp only [List.cons_append, headTerm] at hterm ⊢
              simp [hterm]
        simp only [jsSplitGo, cutSplitGo]
        rw [if_neg hcut, if_neg (by rw [hml]; exact Bool.false_ne_true)]
        have := iha (c :: cur) junk hjunk
        rw [List.cons_append] at this
        exact this
    · intro junk hjunk
      by_cases hws : jsWs c = true
      · have hml : (jsWs c && headTerm junk) = false := by
          cases junk with
          | nil => simp [headTerm]
          | cons j js =>
            simp [headTerm, ws_not_term j (hjunk j (List.mem_cons_self _ _))]
        simp only [jsSplitGo, cutSplitGo]
        rw [if_pos hws, if_neg (by rw [hml]; exact Bool.false_ne_true)]
        refine ihb (c :: junk) ?_
        intro x hx
        rcases List.mem_cons.mp hx with h | h
        · rw [h]; exact hws
        · exact hjunk x h
      · have hml : (jsWs c && headTerm junk) = false := by
          simp [Bool.eq_false_iff.mpr hws]
        simp only [jsSplitGo, cutSplitGo]
        rw [if_neg hws, if_neg (by rw [hml]; exact Bool.false_ne_true)]
        have := iha [c] junk hjunk
        rw [show [c] ++ junk = c :: junk from rfl] at this
        exact this

/-- Characters of abbreviation patterns are never whitespace. -/
theorem abbrev_chars : ∀ a ∈ ABBREVIATIONS, ∀ ch ∈ a ++ ['.'], jsWs ch = false := by decide

/-- Characters of masked abbreviation regions are never whitespace. -/
theorem abbrevM_chars : ∀ a ∈ ABBREVIATIONS, ∀ ch ∈ a ++ MASK, jsWs ch = false := by decide

/-- Abbreviations contain no period. -/
theorem abbrev_no_dot : ∀ a ∈ ABBREVIATIONS, '.' ∉ a := by decide

theorem renderM_snoc_chr (atoms : List SAtom) (c : Char) :
    (renderM (atoms ++ [SAtom.chr c])).reverse = c :: (renderM atoms).reverse := by
  rw [renderM_append]
  simp [renderM]

theorem render_snoc_chr (atoms : List SAtom) (c : Char) :
    (render (atoms ++ [SAtom.chr c])).reverse = c :: (render atoms).reverse := by
  rw [render_append]
  simp [render]

theorem renderM_snoc_ab (atoms : List SAtom) (a : List Char) :
    (renderM (atoms ++ [SAtom.ab a])).reverse =
      (a ++ MASK).reverse ++ (renderM atoms).reverse := by
  rw [renderM_append]
  simp [renderM, List.reverse_append]

theorem render_snoc_ab (atoms : List SAtom) (a : List Char) :
    (render (atoms ++ [SAtom.ab a])).reverse =
      '.' :: (a.reverse ++ (render atoms).reverse) := by
  rw [render_append]
  simp [render, List.reverse_append]

theorem wfAtoms_snoc_chr {atoms : List SAtom} (h : WfAtoms atoms) (c : Char) :
    WfAtoms (atoms ++ [SAtom.chr c]) := by
  intro a ha
  rcases List.mem_append.mp ha with h' | h'
  · exact h a h'
  · simp at h'

theorem wfAtoms_snoc_ab {atoms : List SAtom} (h : WfAtoms atoms) {a : List Char}
    (ha : a ∈ ABBREVIATIONS) : WfAtoms (atoms ++ [SAtom.ab a]) := by
  intro b hb
  rcases List.mem_append.mp hb with h' | h'
  · exact h b h'
  · simp only [List.mem_singleton, SAtom.ab.injEq] at h'
    rw [h']
    exact ha

/-- The accumulator after a masked region ends with `>`, never a
terminator. -/
theorem headTerm_maskRev (a z : List Char) :
    headTerm ((a ++ MASK).reverse ++ z) = false := by
  rw [List.reverse_append, show MASK.reverse = '>' :: (">>TOD<<<".toList) from by decide]
  rfl

/-- No abbreviation straddles the boundary between the scanned prefix
(`curS`, reversed) and the remaining text `t`: no abbreviation has a
non-empty beginning that ends `curS` while its remainder followed by a
period begins `t`. -/
def StraddleFree (curS t : List Char) : Prop :=
  ∀ a ∈ ABBREVIATIONS, ∀ a₁ a₂ : List Char, a = a₁ ++ a₂ → a₁ ≠ [] →
    ¬ (a₁.reverse <+: curS ∧ (a₂ ++ ['.']) <+: t)

theorem straddleFree_push {curS t' : List Char} {c : Char}
    (hstr : StraddleFree curS (c :: t'))
    (hnomatch : ∀ x ∈ ABBREVIATIONS, (x ++ ['.']).isPrefixOf (c :: t') = false) :
    StraddleFree (c :: curS) t' := by
  intro a ha a₁ a₂ heq hne h
  obtain ⟨hpre, hsuf⟩ := h
  obtain ⟨d, w, hdw⟩ : ∃ d w, a₁.reverse = d :: w := by
    cases h1 : a₁.reverse with
    | nil => exact absurd (by simpa using congrArg List.reverse h1) hne
    | cons d w => exact ⟨d, w, rfl⟩
  rw [hdw] at hpre
  obtain ⟨hdc, hw⟩ := List.cons_prefix_cons.mp hpre
  rw [hdc] at hdw
  have ha₁ : a₁ = w.reverse ++ [c] := by
    have := congrArg List.reverse hdw
    simpa using this
  by_cases hwe : w = []
  · subst hwe
    simp only [List.reverse_nil, List.nil_append] at ha₁
    have hpat : (a ++ ['.']).isPrefixOf (c :: t') = true := by
      rw [heq, ha₁]
      refine List.isPrefixOf_iff_prefix.mpr ?_
      rw [show ([c] ++ a₂) ++ ['.'] = c :: (a₂ ++ ['.']) from by simp]
      exact List.cons_prefix_cons.mpr ⟨rfl, hsuf⟩
    rw [hnomatch a ha] at hpat
    cases hpat
  · refine hstr a ha w.reverse (c :: a₂) ?_ ?_ ⟨?_, ?_⟩
    · rw [heq, ha₁]; simp
    · simpa using hwe
    · simpa using hw
    · rw [show (c :: a₂) ++ ['.'] = c :: (a₂ ++ ['.']) from rfl]
      exact List.cons_prefix_cons.mpr ⟨rfl, hsuf⟩

theorem straddleFree_reset {t' : List Char} {c : Char}
    (hnomatch : ∀ x ∈ ABBREVIATIONS, (x ++ ['.']).isPrefixOf (c :: t') = false) :
    StraddleFree [c] t' := by
  intro a ha a₁ a₂ heq hne h
  obtain ⟨hpre, hsuf⟩ := h
  obtain ⟨d, w, hdw⟩ : ∃ d w, a₁.reverse = d :: w := by
    cases h1 : a₁.reverse with
    | nil => exact absurd (by simpa using congrArg List.reverse h1) hne
    | cons d w => exact ⟨d, w, rfl⟩
  rw [hdw] at hpre
  obtain ⟨hdc, hw⟩ := List.cons_prefix_cons.mp hpre
  rw [hdc] at hdw
  have hwe : w = [] := by
    have := hw.length_le
    simp only [List.length_nil] at this
    exact List.length_eq_zero.mp (Nat.le_zero.mp this)
  subst hwe
  have ha₁ : a₁ = [c] := by
    have := congrArg List.reverse hdw
    simpa using this
  have hpat : (a ++ ['.']).isPrefixOf (c :: t') = true := by
    rw [heq, ha₁]
    refine List.isPrefixOf_iff_prefix.mpr ?_
    rw [show ([c] ++ a₂) ++ ['.'] = c :: (a₂ ++ ['.']) from by simp]
    exact List.cons_prefix_cons.mpr ⟨rfl, hsuf⟩
  rw [hnomatch a ha] at hpat
  cases hpat

theorem straddleFree_ab {curS rest : List Char} {a : List Char} :
    StraddleFree ('.' :: (a.reverse ++ curS)) rest := by
  intro b hb a₁ a₂ heq hne h
  obtain ⟨hpre, _⟩ := h
  obtain ⟨d, w, hdw⟩ : ∃ d w, a₁.reverse = d :: w := by
    cases h1 : a₁.reverse with
    | nil => exact absurd (by simpa using congrArg List.reverse h1) hne
    | cons d w => exact ⟨d, w, rfl⟩
  rw [hdw] at hpre
  have hd : d = '.' := (List.cons_prefix_cons.mp hpre).1
  have hdmem : d ∈ a₁ := by
    rw [← List.mem_reverse, hdw]
    exact List.mem_cons_self _ _
  rw [hd] at hdmem
  exact abbrev_no_dot b hb (heq ▸ List.mem_append.mpr (Or.inl hdmem))

theorem abbrevBefore_false_of_straddle {curS t' : List Char}
    (hstr : StraddleFree curS ('.' :: t')) : abbrevBefore curS = false := by
  rw [abbrevBefore, List.any_eq_false]
  intro a ha
  simp only [Bool.not_eq_true]
  rw [Bool.eq_false_iff]
  intro hcontra
  refine hstr a ha a [] (by simp) (abbrev_facts a ha).1
    ⟨List.isPrefixOf_iff_prefix.mp hcontra, ?_⟩
  simp only [List.nil_append]
  exact List.cons_prefix_cons.mpr ⟨rfl, List.nil_prefix⟩

theorem specCut_push {curS t' : List Char} {c : Char}
    (hstr : StraddleFree curS (c :: t')) :
    specCut (c :: curS) = isTerm c := by
  by_cases hdot : c = '.'
  · subst hdot
    simp only [specCut]
    rw [if_pos (by rfl)]
    rw [abbrevBefore_false_of_straddle hstr]
    decide
  · simp only [specCut, isTerm]
    rw [if_neg (by simpa using hdot)]
    rw [show (c == '.') = false from by simpa using hdot]
    simp

/-- Main correspondence: splitting the masked scan of `t` and unmasking the
pieces gives the same trimmed non-empty pieces as the positional
specification split of `t` itself, provided the masking token does not occur
in the text. -/
theorem maskSplit_specSplit :
    ∀ (n : Nat) (t : List Char), t.length ≤ n →
    ∀ (atoms : List SAtom),
      WfAtoms atoms →
      ¬ (MASK <:+: (render atoms ++ t)) →
      StraddleFree (render atoms).reverse t →
      headTerm (renderM atoms).reverse = specCut (render atoms).reverse →
      pieceMapM (cutSplitGo headTerm (renderM atoms).reverse (maskScan ABBREVIATIONS t)) =
        pieceMapS (cutSplitGo specCut (render atoms).reverse t) := by
  intro n
  induction n with
  | zero =>
    intro t ht atoms hwf hmf _ _
    have ht0 : t = [] := List.length_eq_zero.mp (Nat.le_zero.mp ht)
    subst ht0
    rw [show maskScan ABBREVIATIONS [] = [] from rfl]
    simp only [cutSplitGo]
    refine pieceMapMS_cons ?_ rfl
    rw [List.reverse_reverse, List.reverse_reverse]
    rw [List.append_nil] at hmf
    exact congrArg trim (unmask_renderM atoms hwf hmf)
  | succ n ih =>
    intro t ht atoms hwf hmf hstr hcond
    cases t with
    | nil =>
      rw [show maskScan ABBREVIATIONS [] = [] from rfl]
      simp only [cutSplitGo]
      refine pieceMapMS_cons ?_ rfl
      rw [List.reverse_reverse, List.reverse_reverse]
      rw [List.append_nil] at hmf
      exact congrArg trim (unmask_renderM atoms hwf hmf)
    | cons c t' =>
      have ht' : t'.length ≤ n := by
        simp only [List.length_cons] at ht
        omega
      cases hm : findMatch ABBREVIATIONS (c :: t') with
      | some a =>
        have hm' : ABBREVIATIONS.find? (fun x => (x ++ ['.']).isPrefixOf (c :: t')) = some a := hm
        have ha : a ∈ ABBREVIATIONS := List.mem_of_find?_eq_some hm'
        have hp : (a ++ ['.']).isPrefixOf (c :: t') = true := by
          have := List.find?_some hm'
          exact this
        have hsplit : (c :: t') = (a ++ ['.']) ++ (c :: t').drop (a.length + 1) := by
          have h1 := List.prefix_iff_eq_append.mp (List.isPrefixOf_iff_prefix.mp hp)
          rw [show (a ++ ['.']).length = a.length + 1 from by simp] at h1
          exact h1.symm
        have hlrest : ((c :: t').drop (a.length + 1)).length ≤ n := by
          rw [List.length_drop]
          simp only [List.length_cons]
          omega
        have hstring : render (atoms ++ [SAtom.ab a]) ++ (c :: t').drop (a.length + 1) =
            render atoms ++ (c :: t') := by
          rw [render_append]
          conv_rhs => rw [hsplit]
          simp [render]
        rw [maskScan_match ABBREVIATIONS _ a hm]
        rw [cutSplitGo_push headTerm (a ++ MASK) (abbrevM_chars a ha) _ _]
        conv_rhs => rw [hsplit]
        rw [cutSplitGo_push specCut (a ++ ['.']) (abbrev_chars a ha) _ _]
        rw [← renderM_snoc_ab atoms a]
        have hrS : (a ++ ['.']).reverse ++ (render atoms).reverse =
            (render (atoms ++ [SAtom.ab a])).reverse := by
          rw [render_snoc_ab]
          simp [List.reverse_append]
        rw [hrS]
        refine ih _ hlrest (atoms ++ [SAtom.ab a]) (wfAtoms_snoc_ab hwf ha) ?_ ?_ ?_
        · rw [hstring]
          exact hmf
        · rw [render_snoc_ab]
          exact straddleFree_ab
        · rw [renderM_snoc_ab, render_snoc_ab, headTerm_maskRev]
          simp only [specCut]
          rw [abbrevBefore_append a ha]
          rfl
      | none =>
        have hnomatch := findMatch_none hm
        rw [maskScan_nomatch ABBREVIATIONS c t' hm]
        have hstring : render (atoms ++ [SAtom.chr c]) ++ t' = render atoms ++ (c :: t') := by
          rw [render_append]
          simp [render]
        have hcondP : headTerm (renderM (atoms ++ [SAtom.chr c])).reverse =
            specCut (render (atoms ++ [SAtom.chr c])).reverse := by
          rw [renderM_snoc_chr, render_snoc_chr, specCut_push hstr]
          rfl
        by_cases hcut : (jsWs c && headTerm (renderM atoms).reverse) = true
        · rw [Bool.and_eq_true] at hcut
          have hcs : (jsWs c && specCut (render atoms).reverse) = true := by
            rw [← hcond]
            simp [hcut.1, hcut.2]
          simp only [cutSplitGo]
          rw [if_pos (by simp [hcut.1, hcut.2]), if_pos hcs]
          have hwf1 : WfAtoms [SAtom.chr c] := by
            intro b hb
            simp at hb
          have hmf1 : ¬ (MASK <:+: render [SAtom.chr c] ++ t') := by
            intro hcontra
            refine hmf ?_
            have h2 : MASK <:+: (c :: t') := by simpa [render] using hcontra
            exact h2.trans (List.suffix_append (render atoms) (c :: t')).isInfix
          have hstr1 : StraddleFree (render [SAtom.chr c]).reverse t' := by
            have := straddleFree_reset hnomatch
            simpa [render] using this
          have hcond1 : headTerm (renderM [SAtom.chr c]).reverse =
              specCut (render [SAtom.chr c]).reverse := by
            have hit := ws_not_term c hcut.1
            have hsc : specCut [c] = false := by
              rw [isTerm] at hit
              simp only [Bool.or_eq_false_iff] at hit
              simp only [specCut]
              rw [if_neg (by rw [hit.1.1]; exact Bool.false_ne_true)]
              rw [hit.1.2, hit.2]
              rfl
            simp only [renderM, render, List.reverse_cons, List.reverse_nil, List.nil_append]
            rw [hsc]
            simp only [headTerm]
            exact ws_not_term c hcut.1
          have hrec := ih t' ht' [SAtom.chr c] hwf1 hmf1 hstr1 hcond1
          refine pieceMapMS_cons ?_ ?_
          · rw [List.reverse_reverse, List.reverse_reverse]
            exact congrArg trim (unmask_renderM atoms hwf
              (fun h => hmf (h.trans (List.prefix_append _ _).isInfix)))
          · simpa [renderM, render] using hrec
        · have hcs : (jsWs c && specCut (render atoms).reverse) = false := by
            rw [← hcond]
            exact Bool.eq_false_iff.mpr hcut
          simp only [cutSplitGo]
          rw [if_neg hcut, if_neg (by rw [hcs]; exact Bool.false_ne_true)]
          have hwf1 := wfAtoms_snoc_chr hwf c
          have hmf1 : ¬ (MASK <:+: render (atoms ++ [SAtom.chr c]) ++ t') := by
            rw [hstring]
            exact hmf
          have hstr1 : StraddleFree (render (atoms ++ [SAtom.chr c])).reverse t' := by
            rw [render_snoc_chr]
            exact straddleFree_push hstr hnomatch
          have hrec := ih t' ht' (atoms ++ [SAtom.chr c]) hwf1 hmf1 hstr1 hcondP
          rw [renderM_snoc_chr, render_snoc_chr] at hrec
          exact hrec

/-- Assembly: for mask-free input the code's sentence splitter equals the
positional specification splitter. -/
theorem splitIntoSentences_spec_of_maskFree (t : List Char) (hmf : ¬ (MASK <:+: t)) :
    splitIntoSentences t = specSplitSentences t := by
  have h1 : splitIntoSentences t =
      pieceMapM (jsSplitGo headTerm [] false (maskScan ABBREVIATIONS t)) := by
    rw [splitIntoSentences, maskAbbrs_eq_maskScan]
    rfl
  have h2 := (jsSplit_cutSplit_headTerm (maskScan ABBREVIATIONS t)).1 [] [] (by simp)
  have hstr0 : StraddleFree (render []).reverse t := by
    intro a ha a₁ a₂ heq hne hh
    obtain ⟨hpre, _⟩ := hh
    have hz : a₁.reverse = [] := by
      have hl := hpre.length_le
      simp only [render, List.reverse_nil, List.length_nil] at hl
      exact List.length_eq_zero.mp (Nat.le_zero.mp hl)
    exact hne (by simpa using congrArg List.reverse hz)
  have h3 := maskSplit_specSplit t.length t (le_refl _) [] (by intro b hb; simp at hb)
    (by simpa [render] using hmf) hstr0 rfl
  simp only [renderM, render, List.reverse_nil] at h3
  rw [h1, h2]
  simp only [List.nil_append]
  rw [h3]
  rfl

/-- C2 (amended): for every input text that does not contain the literal
masking token `<<<DOT>>>`, `splitIntoSentences` returns exactly the trimmed,
non-empty pieces of the text cut at every occurrence of a terminal
punctuation character followed by whitespace (abbreviation periods
excepted), terminator attached to the preceding sentence, end-of-string
acting as an implicit boundary, the empty string yielding the empty
sequence — as computed positionally by `specSplitSentences`. -/
theorem C2_sentences_are_cut_pieces (t : List Char) (h : hasSub MASK t = false) :
    splitIntoSentences t = specSplitSentences t := by
  refine splitIntoSentences_spec_of_maskFree t ?_
  intro hcontra
  rw [(hasSub_iff_occurs MASK t).mpr hcontra] at h
  cases h

/-- Witness for C2 at a concrete mask-free input. -/
theorem C2_sentences_are_cut_pieces_witness :
    splitIntoSentences ("Mr. Smith went home. He was tired.".toList) =
      specSplitSentences ("Mr. Smith went home. He was tired.".toList) :=
  C2_sentences_are_cut_pieces (("Mr. Smith went home. He was tired.").toList) (by decide)

/-- Every piece produced by the modeless splitter is a contiguous substring
of the accumulated prefix plus the input. -/
theorem cutSplitGo_piece_occurs (cond : List Char → Bool) :
    ∀ (s cur p : List Char), p ∈ cutSplitGo cond cur s → p <:+: (cur.reverse ++ s) := by
  intro s
  induction s with
  | nil =>
    intro cur p hp
    simp only [cutSplitGo, List.mem_singleton] at hp
    subst hp
    rw [List.append_nil]
  | cons c rest ih =>
    intro cur p hp
    simp only [cutSplitGo] at hp
    by_cases hc : (jsWs c && cond cur) = true
    · rw [if_pos hc] at hp
      rcases List.mem_cons.mp hp with h | h
      · subst h
        exact (List.prefix_append cur.reverse (c :: rest)).isInfix
      · have h2 := ih [c] p h
        simp only [List.reverse_cons, List.reverse_nil, List.nil_append] at h2
        exact h2.trans (List.suffix_append cur.reverse (c :: rest)).isInfix
    · rw [if_neg hc] at hp
      have h2 := ih (c :: cur) p hp
      rw [show (c :: cur).reverse ++ rest = cur.reverse ++ (c :: rest) from by simp] at h2
      exact h2

/-- Trimming yields a contiguous substring. -/
theorem trim_occurs (p : List Char) : trim p <:+: p := by
  rw [trim]
  have h1 : p.dropWhile jsWs <:+ p := List.dropWhile_suffix jsWs
  have h2 : ((p.dropWhile jsWs).reverse.dropWhile jsWs) <:+ (p.dropWhile jsWs).reverse :=
    List.dropWhile_suffix jsWs
  obtain ⟨u, hu⟩ := h2
  have h3 : ((p.dropWhile jsWs).reverse.dropWhile jsWs).reverse <+: p.dropWhile jsWs := by
    have h4 := congrArg List.reverse hu
    simp only [List.reverse_append, List.reverse_reverse] at h4
    exact ⟨u.reverse, h4⟩
  exact h3.isInfix.trans h1.isInfix

/-- Every piece produced by the blank-line splitter is a contiguous substring
of the accumulated prefix plus pending newlines plus the input. -/
theorem splitNNGo_piece_occurs :
    ∀ (u cur : List Char) (pending : Nat) (p : List Char),
      p ∈ splitNNGo cur pending u →
      p <:+: (cur.reverse ++ List.replicate pending '\n' ++ u) := by
  intro u
  induction u with
  | nil =>
    intro cur pending p hp
    simp only [splitNNGo] at hp
    by_cases hpend : 2 ≤ pending
    · rw [if_pos hpend] at hp
      rcases List.mem_cons.mp hp with h | h
      · subst h
        exact ((List.prefix_append cur.reverse _).trans
          (List.prefix_append _ [])).isInfix
      · simp only [List.mem_singleton] at h
        subst h
        exact List.nil_infix
    · rw [if_neg hpend] at hp
      simp only [List.mem_singleton] at hp
      subst hp
      rw [List.reverse_append, List.reverse_replicate, List.append_nil]
  | cons c rest ih =>
    intro cur pending p hp
    simp only [splitNNGo] at hp
    by_cases hnl : (c == '\n') = true
    · rw [if_pos hnl] at hp
      have h2 := ih cur (pending + 1) p hp
      have heq : cur.reverse ++ List.replicate (pending + 1) '\n' ++ rest =
          cur.reverse ++ List.replicate pending '\n' ++ (c :: rest) := by
        rw [List.replicate_succ' pending '\n',
          show (c : Char) = '\n' from by simpa using hnl]
        simp
      rwa [heq] at h2
    · rw [if_neg hnl] at hp
      by_cases hpend : 2 ≤ pending
      · rw [if_pos hpend] at hp
        rcases List.mem_cons.mp hp with h | h
        · subst h
          exact ((List.prefix_append cur.reverse (List.replicate pending '\n')).trans
            (List.prefix_append _ (c :: rest))).isInfix
        · have h2 := ih [c] 0 p h
          simp only [List.reverse_cons, List.reverse_nil, List.nil_append,
            List.replicate_zero, List.append_nil] at h2
          have h3 : p <:+: (c :: rest) := by simpa using h2
          exact h3.trans (List.suffix_append _ (c :: rest)).isInfix
      · rw [if_neg hpend] at hp
        have h2 := ih (c :: (List.replicate pending '\n' ++ cur)) 0 p hp
        rw [show (c :: (List.replicate pending '\n' ++ cur)).reverse ++
            List.replicate 0 '\n' ++ rest =
            cur.reverse ++ List.replicate pending '\n' ++ (c :: rest) from by
          simp [List.reverse_append, List.reverse_replicate]] at h2
        exact h2

/-- C5 (amended): provided the extracted body text does not contain the
literal masking token `<<<DOT>>>`, every sentence text produced by the
pipeline is a verbatim contiguous substring of the extracted body text
(with its internal punctuation and trailing terminator). -/
theorem C5_sentence_text_is_substring
    (readability : List Char → Option RArticle)
    (urlHost : List Char → Option (List Char))
    (html url : List Char) (ra : RArticle) (hn content : List Char) (art : ParsedArticle)
    (hne : html ≠ []) (hr : readability html = some ra)
    (htc : ra.textContent = some content) (hu : urlHost url = some hn)
    (hmask : hasSub MASK content = false)
    (hart : parseArticle readability urlHost html url = .ok art) :
    ∀ p ∈ art.paragraphs, ∀ s ∈ p.sentences, s.text <:+: content := by
  intro p hp s hs
  have hcmf : ¬ (MASK <:+: content) := by
    intro hcontra
    rw [(hasSub_iff_occurs MASK content).mpr hcontra] at hmask
    cases hmask
  rw [parseArticle] at hart
  rw [show extractArticle readability urlHost html url =
      .ok { title := ra.title.getD [], content := content, source := hn } from by
    simp [extractArticle, hne, hr, htc, hu]] at hart
  simp only [Except.ok.injEq] at hart
  subst hart
  simp only [List.mem_map] at hp
  obtain ⟨pt, hptmem, hpeq⟩ := hp
  subst hpeq
  simp only [List.mem_map] at hs
  obtain ⟨st, hstmem, hseq⟩ := hs
  subst hseq
  have hptinfix : pt <:+: content := by
    have h1 := splitNNGo_piece_occurs content [] 0 pt (List.mem_of_mem_filter hptmem)
    simpa using h1
  have hptmf : ¬ (MASK <:+: pt) := fun h => hcmf (h.trans hptinfix)
  rw [splitIntoSentences_spec_of_maskFree pt hptmf] at hstmem
  have hst2 := (List.mem_filter.mp hstmem).1
  obtain ⟨piece, hpiece, hsteq⟩ := List.mem_map.mp hst2
  have hpinf : piece <:+: pt := by
    simpa using cutSplitGo_piece_occurs specCut pt [] piece hpiece
  have : st <:+: piece := by
    rw [← hsteq]
    exact trim_occurs piece
  exact (this.trans hpinf).trans hptinfix

/-- Witness for C5: a concrete pipeline run whose first sentence text is a
substring of the body text. -/
theorem C5_sentence_text_is_substring_witness :
    ("Hello there.".toList) <:+: ("Hello there. Bye.".toList) := by
  have h := C5_sentence_text_is_substring
    (fun _ => some { title := some ("T".toList),
                     textContent := some ("Hello there. Bye.".toList) })
    (fun _ => some ("example.com".toList))
    ("<html>".toList) ("https://example.com/a".toList)
    { title := some ("T".toList), textContent := some ("Hello there. Bye.".toList) }
    ("example.com".toList) ("Hello there. Bye.".toList)
    { title := ("T".toList), source := ("example.com".toList),
      paragraphs :=
        [{ sentences := [{ text := ("Hello there.".toList),
                           words := [("Hello".toList), ("there".toList)] },
                         { text := ("Bye.".toList), words := [("Bye".toList)] }] }] }
    (by decide) rfl rfl rfl (by decide) (by rfl)
    { sentences := [{ text := ("Hello there.".toList),
                      words := [("Hello".toList), ("there".toList)] },
                    { text := ("Bye.".toList), words := [("Bye".toList)] }] }
    (by decide)
    { text := ("Hello there.".toList), words := [("Hello".toList), ("there".toList)] }
    (by decide)
  exact h
